import Mathlib

/-!
Verification development for the knitting-pattern platform.

This file gives a shallow embedding, in Lean 4, of the core logic of the
repository: the pattern-to-graph compiler (`parsePattern`), the grid layout
seeder (`addGridLayout`), the coordinate-remapping preprocessing step of the
force-simulation engine, the geometry primitives (`orientation`, `onSegment`,
`doSegmentsIntersect`), the scale-calibration bisection loop, and the input
filter used by the Process Pattern handler (`filterPattern`, `countColumns`).

Modeling conventions:
* JavaScript numbers are modeled as `ℚ` (exact rationals); the quantities the
  claims are about (edge weights, grid coordinates, the bisection bounds) stay
  well within exactly-representable ranges.
* JavaScript `NaN` produced by `0/0` in the coordinate remap is modeled with
  `Option ℚ` (`none` = not a number).
* Strings are processed at the character-list level (`List Char`), with
  whitespace and word-characters taken from the ASCII range (the only
  characters the pattern grammar uses).  `parseInt` is modeled in radix 10
  (optional sign, maximal leading digit run, trailing junk ignored); the
  JavaScript hexadecimal `0x` prefix special case is not modeled since no
  claim depends on it.
* Mutation is modeled by explicit state passing (`PState` for the compiler).
-/

namespace Knit

/-! ### Character and string utilities (JS semantics) -/

/-- Whitespace characters recognized by the JavaScript `\s` class and `trim`,
restricted to the ASCII range used by pattern text. -/
def jsIsWs (c : Char) : Bool :=
  c = ' ' || c = '\t' || c = '\n' || c = '\r' || c = '\x0b' || c = '\x0c'

/-- Word characters of the JavaScript `\b` boundary (`[A-Za-z0-9_]`). -/
def isWordChar (c : Char) : Bool :=
  ('a' ≤ c && c ≤ 'z') || ('A' ≤ c && c ≤ 'Z') || ('0' ≤ c && c ≤ '9') || c = '_'

/-- Left-trim: drop leading whitespace. -/
def trimLeft (l : List Char) : List Char := l.dropWhile jsIsWs

/-- `String.prototype.trim`: drop leading and trailing whitespace. -/
def jsTrimList (l : List Char) : List Char :=
  ((trimLeft l).reverse.dropWhile jsIsWs).reverse

/-- `s.split(sep)` for a single separator character (used for `split('\n')`).
Always returns a non-empty list; empty fields are kept, as in JavaScript. -/
def splitOnChar (sep : Char) : List Char → List (List Char)
  | [] => [[]]
  | c :: cs =>
    if c = sep then [] :: splitOnChar sep cs
    else
      match splitOnChar sep cs with
      | [] => [[c]]
      | t :: ts => (c :: t) :: ts

/-- Maximal runs of non-whitespace characters: the token list of one line.
This is `line.trim().split(/\s+/).filter(t => t.trim())` from the source:
splitting on maximal whitespace runs and dropping the empty fields produced
at the ends leaves exactly the maximal non-whitespace runs. -/
def splitRuns : List Char → List (List Char)
  | [] => []
  | [c] => if jsIsWs c then [] else [[c]]
  | c :: d :: cs =>
    if jsIsWs c then splitRuns (d :: cs)
    else
      if jsIsWs d then [c] :: splitRuns (d :: cs)
      else
        match splitRuns (d :: cs) with
        | [] => [[c]]
        | t :: ts => (c :: t) :: ts

/-- Lowercasing a token, character by character (ASCII, as in the grammar). -/
def lowerToken (t : List Char) : List Char := t.map Char.toLower

/-- Numeric value of a digit run, most significant digit first. -/
def digitsVal (l : List Char) : Nat :=
  l.foldl (fun acc c => 10 * acc + (c.toNat - 48)) 0

/-- Maximal leading digit run of `l` interpreted as a number; `none` when the
run is empty (JavaScript `NaN`). -/
def jsDigitsVal (l : List Char) : Option Nat :=
  match l.takeWhile Char.isDigit with
  | [] => none
  | ds => some (digitsVal ds)

/-- JavaScript `parseInt` in radix 10: skip leading whitespace, optional
sign, then the maximal digit run; `none` models `NaN`. -/
def jsParseInt (t : List Char) : Option Int :=
  match trimLeft t with
  | '+' :: rest => (jsDigitsVal rest).map Int.ofNat
  | '-' :: rest => (jsDigitsVal rest).map (fun n => -(Int.ofNat n))
  | rest => (jsDigitsVal rest).map Int.ofNat

/-- `s.startsWith('co')`. -/
def startsWithCo : List Char → Bool
  | 'c' :: 'o' :: _ => true
  | _ => false

/-- Decimal digit character (`d` below 10). -/
def natDigitChar : Nat → Char
  | 0 => '0' | 1 => '1' | 2 => '2' | 3 => '3' | 4 => '4'
  | 5 => '5' | 6 => '6' | 7 => '7' | 8 => '8' | _ => '9'

/-- Decimal digit list of a natural number, most significant first. -/
def natDigits (n : Nat) : List Char :=
  if _h : n < 10 then [natDigitChar n]
  else natDigits (n / 10) ++ [natDigitChar (n % 10)]
termination_by n
decreasing_by exact Nat.div_lt_self (by omega) (by omega)

/-! ### The stitch technique table -/

/-- A stitch technique record, exactly as in `loadStitchTechniques`. -/
structure Technique where
  character : String
  kill : Nat
  add : Nat
  cursor_dir : Bool
deriving DecidableEq

/-- The fixed technique table from `loadStitchTechniques`. -/
def stitchTechniques : List (List Char × Technique) :=
  [ ("k".data, ⟨"k", 1, 1, false⟩),
    ("co".data, ⟨"k", 0, 1, false⟩),
    ("yo".data, ⟨"k", 0, 1, false⟩),
    ("bo".data, ⟨"k", 1, 0, false⟩),
    ("p".data, ⟨"p", 1, 1, false⟩),
    ("kfb".data, ⟨"k", 1, 2, false⟩),
    ("kfb3".data, ⟨"k", 1, 3, false⟩),
    ("kfb4".data, ⟨"k", 1, 4, false⟩),
    ("kfb5".data, ⟨"k", 1, 5, false⟩),
    ("kfb3-3".data, ⟨"k", 3, 3, false⟩),
    ("ssk".data, ⟨"k", 2, 1, false⟩),
    ("k2tog".data, ⟨"k", 2, 1, false⟩),
    ("p2tog".data, ⟨"p", 2, 1, false⟩),
    ("k3tog".data, ⟨"k", 3, 1, false⟩),
    ("turn".data, ⟨"k", 0, 0, true⟩) ]

/-- Table lookup (`stitch in stitchTechniques` followed by indexing). -/
def findTech (stitch : List Char) : Option Technique :=
  (stitchTechniques.find? (fun p => p.1 = stitch)).map (fun p => p.2)

/-- The technique record stored on cast-on nodes (`stitchTechniques['co']`). -/
def coTech : Technique := ⟨"k", 0, 1, false⟩

/-! ### Graph data model -/

/-- Edge kinds. -/
inductive EdgeType
  | horizontal
  | vertical
deriving DecidableEq

/-- A stitch node, as built by `parsePattern`. -/
structure Node where
  id : Nat
  type : String
  character : String
  technique : Technique
deriving DecidableEq

/-- A graph edge, as built by `parsePattern`. -/
structure Edge where
  source : Nat
  target : Nat
  weight : ℚ
  type : EdgeType
deriving DecidableEq

/-- Horizontal edge weight (`weightH`). -/
def weightH : ℚ := 1

/-- Vertical edge weight (`weightV`). -/
def weightV : ℚ := 3/2

/-- Structured compile errors; each carries the offending (lowercased) token,
mirroring the thrown `Error` messages. -/
inductive ParseError
  | unknownStitch (token : String)
  | leftNeedleEmpty (token : String)
deriving DecidableEq

/-- The result object returned by `parsePattern`. -/
structure ParseResult where
  nodes : List Node
  edges : List Edge
  success : Bool
  error : Option ParseError
deriving DecidableEq

/-! ### The pattern compiler state machine -/

/-- The compiler-local mutable state of `parsePattern`. -/
@[ext]
structure PState where
  allNodes : List Node
  allEdges : List Edge
  rightNeedle : List Nat
  leftNeedle : List Nat
  count : Nat
  edgeFlag : Bool
deriving DecidableEq

/-- The initial compiler state. -/
def initState : PState := ⟨[], [], [], [], 0, true⟩

/-- Create one stitch node: push the id on the working (right) needle, append
the node, and either append a horizontal edge from the previous id (when the
suppression flag is off and an id exists) or clear the suppression flag.
This is the node-creation block shared by the cast-on loop and the
technique `add` loop. -/
def addStitchNode (ty ch : String) (tech : Technique) (st : PState) : PState :=
  if st.edgeFlag = false ∧ 0 < st.count then
    { st with
      allNodes := st.allNodes ++ [{ id := st.count, type := ty, character := ch, technique := tech }],
      allEdges := st.allEdges ++
        [{ source := st.count - 1, target := st.count, weight := weightH, type := .horizontal }],
      rightNeedle := st.rightNeedle ++ [st.count],
      count := st.count + 1 }
  else
    { st with
      allNodes := st.allNodes ++ [{ id := st.count, type := ty, character := ch, technique := tech }],
      rightNeedle := st.rightNeedle ++ [st.count],
      count := st.count + 1,
      edgeFlag := false }

/-- The `for (j = 0; j < n; j++)` node-creation loop, also accumulating the
`addedStitches` ids. -/
def addLoop (ty ch : String) (tech : Technique) : Nat → PState → List Nat → PState × List Nat
  | 0, st, added => (st, added)
  | n + 1, st, added =>
    addLoop ty ch tech n (addStitchNode ty ch tech st) (added ++ [st.count])

/-- The cast-on loop: create `n` nodes of kind `co` (the `addedStitches`
accumulator is unused there). -/
def castOnLoop (n : Nat) (st : PState) : PState :=
  (addLoop "co" "k" coTech n st []).1

/-- The `kill` loop: pop the holding (left) needle `n` times; each popped id
gets a vertical edge to every added id; popping an empty needle is fatal. -/
def killLoop (ty : String) (added : List Nat) : Nat → PState → Except ParseError PState
  | 0, st => .ok st
  | n + 1, st =>
    match st.leftNeedle.getLast? with
    | some usedStitch =>
      killLoop ty added n
        { st with
          leftNeedle := st.leftNeedle.dropLast,
          allEdges := st.allEdges ++ added.map (fun a =>
            { source := usedStitch, target := a, weight := weightV, type := .vertical }) }
    | none => .error (.leftNeedleEmpty ty)

/-- Run the `kill` loop on the outcome of the `add` loop (state with the
collected `addedStitches`). -/
def runKill (stitch : List Char) (tech : Technique) (p : PState × List Nat) :
    Except ParseError PState :=
  killLoop (String.mk stitch) p.2 tech.kill p.1

/-- Execute one known technique: swap needles and re-arm the suppression flag
when `cursor_dir` is set, then run the `add` loop and the `kill` loop. -/
def techStep (stitch : List Char) (tech : Technique) (st : PState) : Except ParseError PState :=
  runKill stitch tech (addLoop (String.mk stitch) tech.character tech tech.add
    (if tech.cursor_dir then
      { st with rightNeedle := st.leftNeedle, leftNeedle := st.rightNeedle, edgeFlag := true }
    else st) [])

/-- Token dispatch loop of `parsePattern` for the tokens of one line.
In the cast-on branch a bare `co` consumes a following numeric token
(the `i++` skip), a fused `co<digits>` parses its suffix, and the default
count is 1; negative parsed counts run the creation loop zero times, as the
JavaScript `for` loop does. -/
def processTokens : List (List Char) → PState → Except ParseError PState
  | [], st => .ok st
  | tok :: rest, st =>
    let stitch := lowerToken tok
    if stitch = ['c', 'o'] ∨ startsWithCo stitch = true then
      if stitch = ['c', 'o'] then
        match rest with
        | next :: rest2 =>
          match jsParseInt next with
          | some num => processTokens rest2 (castOnLoop num.toNat st)
          | none => processTokens (next :: rest2) (castOnLoop 1 st)
        | [] => processTokens [] (castOnLoop 1 st)
      else
        match jsParseInt (stitch.drop 2) with
        | some num => processTokens rest (castOnLoop num.toNat st)
        | none => processTokens rest (castOnLoop 1 st)
    else
      match findTech stitch with
      | some tech =>
        match techStep stitch tech st with
        | .ok st1 => processTokens rest st1
        | .error e => .error e
      | none =>
        if stitch.head? = some 'c' ∧ stitch.getLast? = some 'c' then
          processTokens rest st
        else
          .error (.unknownStitch (String.mk stitch))

/-- End-of-line rule: a non-empty working needle becomes the holding needle,
the working needle is cleared and the suppression flag is re-armed. -/
def endOfLine (st : PState) : PState :=
  if st.rightNeedle = [] then st
  else { st with leftNeedle := st.rightNeedle, rightNeedle := [], edgeFlag := true }

/-- Line loop of `parsePattern`.  A line whose trimmed form is empty is
skipped entirely (`continue`), so it does not trigger the end-of-line rule;
for a non-empty line this runs the token loop then the end-of-line rule. -/
def processLines : List (List Char) → PState → Except ParseError PState
  | [], st => .ok st
  | line :: rest, st =>
    match splitRuns line with
    | [] => processLines rest st
    | t :: ts =>
      match processTokens (t :: ts) st with
      | .ok st1 => processLines rest (endOfLine st1)
      | .error e => .error e

/-- The compiler state reached from a raw pattern string (trim, split into
lines, run the line loop). -/
def parseState (pattern : String) : Except ParseError PState :=
  processLines (splitOnChar '\n' (jsTrimList pattern.data)) initState

/-- `parsePattern`: on success the accumulated nodes and edges, on any
compile error empty arrays with `success = false` and the error. -/
def parsePattern (pattern : String) : ParseResult :=
  match parseState pattern with
  | .ok st => ⟨st.allNodes, st.allEdges, true, none⟩
  | .error e => ⟨[], [], false, some e⟩

/-! ### Layout: positioned nodes and the grid seeder (`addGridLayout`) -/

/-- A node carrying layout coordinates (the positioned copies produced by the
layout stages; the compiler's nodes are never mutated). -/
structure PNode where
  id : Nat
  type : String
  character : String
  technique : Technique
  x : ℚ
  y : ℚ
deriving DecidableEq

/-- A compiler node together with assigned coordinates. -/
def positionNode (n : Node) (xy : ℚ × ℚ) : PNode :=
  ⟨n.id, n.type, n.character, n.technique, xy.1, xy.2⟩

/-- The `hasHorizontalEdge` scan of `addGridLayout`: some horizontal edge
joins the two given node ids, in either direction. -/
def hasHorizontalEdge (edgeData : List Edge) (a b : Nat) : Bool :=
  edgeData.any (fun e => e.type = .horizontal ∧
    ((e.source = a ∧ e.target = b) ∨ (e.target = a ∧ e.source = b)))

/-- Row-grouping scan of `addGridLayout`: walk the id-sorted nodes, starting
a new row whenever no horizontal edge joins a node to its predecessor.
`prev` is the predecessor in the sorted order, `current` the row being
accumulated (always non-empty). -/
def groupRowsAux (edgeData : List Edge) : Node → List Node → List Node → List (List Node)
  | _, current, [] => [current]
  | prev, current, n :: rest =>
    if hasHorizontalEdge edgeData prev.id n.id then
      groupRowsAux edgeData n (current ++ [n]) rest
    else
      current :: groupRowsAux edgeData n [n] rest

/-- Partition the sorted node list into row groups. -/
def groupRows (edgeData : List Edge) : List Node → List (List Node)
  | [] => []
  | n :: rest => groupRowsAux edgeData n [n] rest

/-- Positions assigned to one row group by `addGridLayout`: `(id, x, y)`
per node, with serpentine reversal and half-spacing offset on odd rows. -/
def gridRowPositions (gridSpacing : ℚ) (center : ℚ × ℚ) (numRows : Nat) (startY : ℚ)
    (verticalSpacing : ℚ) (rowIndex : Nat) (row : List Node) : List (Nat × ℚ × ℚ) :=
  let rowY := startY + ((numRows - 1 - rowIndex : Nat) : ℚ) * verticalSpacing
  let rowWidth := ((row.length - 1 : Nat) : ℚ) * gridSpacing
  let horizontalOffset : ℚ := if rowIndex % 2 = 0 then 0 else gridSpacing / 2
  let rowStartX := center.1 - rowWidth / 2 + horizontalOffset
  let processedRow := if rowIndex % 2 ≠ 0 then row.reverse else row
  processedRow.enum.map (fun p => (p.2.id, rowStartX + (p.1 : ℚ) * gridSpacing, rowY))

/-- Position lookup by node id.  In `addGridLayout` every node object is
positioned exactly once (the row groups partition the sorted copy), so for
graphs with distinct ids — the compiler always produces distinct ids — the
id lookup reproduces the object mutation; the `(0, 0)` default is dead. -/
def findPos (ps : List (Nat × ℚ × ℚ)) (i : Nat) : ℚ × ℚ :=
  match ps.find? (fun p => p.1 = i) with
  | some p => p.2
  | none => (0, 0)

/-- `addGridLayout`: deterministic row-grid seeding.  Sort by id, group into
rows by horizontal-edge connectivity, stack rows bottom-to-top with vertical
spacing `0.8 × gridSpacing`, stagger and reverse odd rows, and return the
nodes of `nodeData` (in input order) with their assigned coordinates.
Defaults in the source: `gridSpacing = 40`, `center = (400, 300)`. -/
def addGridLayout (nodeData : List Node) (edgeData : List Edge)
    (gridSpacing : ℚ) (center : ℚ × ℚ) : List PNode :=
  match nodeData with
  | [] => []
  | _ =>
    let sortedNodes := nodeData.insertionSort (fun a b => a.id ≤ b.id)
    let rowGroups := groupRows edgeData sortedNodes
    let numRows := rowGroups.length
    let verticalSpacing := gridSpacing * (4/5)
    let gridHeight := ((numRows - 1 : Nat) : ℚ) * verticalSpacing
    let startY := center.2 - gridHeight / 2
    let positions :=
      rowGroups.enum.flatMap (fun p =>
        gridRowPositions gridSpacing center numRows startY verticalSpacing p.1 p.2)
    nodeData.map (fun n => positionNode n (findPos positions n.id))

/-! ### Simulation preprocessing: remap into the canonical domain -/

/-- Minimum of a list of rationals (head-seeded fold; `d3.extent` lower end
for a non-empty list). -/
def listMin : List ℚ → ℚ
  | [] => 0
  | x :: xs => xs.foldl min x

/-- Maximum of a list of rationals (`d3.extent` upper end). -/
def listMax : List ℚ → ℚ
  | [] => 0
  | x :: xs => xs.foldl max x

/-- One-axis remap `(v - lo) / (hi - lo) * 1000` into the canonical domain.
`none` models the `NaN` produced when the extent is degenerate (`hi = lo`):
for extent-derived inputs `v = lo` there, so the JavaScript value is `0/0`. -/
def remapCoord (v lo hi : ℚ) : Option ℚ :=
  if hi - lo = 0 then none else some ((v - lo) / (hi - lo) * 1000)

/-- Remap one node; when either remapped coordinate is not a number the node
is assigned the fallback position `x = 500`, `y = 300` (both axes are
overwritten, as in the source). -/
def remapNode (ex ey : ℚ × ℚ) (n : PNode) : PNode :=
  match remapCoord n.x ex.1 ex.2, remapCoord n.y ey.1 ey.2 with
  | some x1, some y1 => { n with x := x1, y := y1 }
  | _, _ => { n with x := 500, y := 300 }

/-- The preprocessing pass of `applyForceSimulation`: compute both extents
and remap every node.  Total: no error is ever raised. -/
def remapNodes (nodes : List PNode) : List PNode :=
  let ex := (listMin (nodes.map PNode.x), listMax (nodes.map PNode.x))
  let ey := (listMin (nodes.map PNode.y), listMax (nodes.map PNode.y))
  nodes.map (remapNode ex ey)

/-! ### Geometry primitives -/

/-- A 2D point. -/
structure Point where
  x : ℚ
  y : ℚ
deriving DecidableEq

/-- `orientation(a,b,c)`: 0 = collinear, 1 = clockwise, 2 = counterclockwise
(sign of the cross product of `b - a` and `c - b`). -/
def orientation (a b c : Point) : Nat :=
  let val := (b.y - a.y) * (c.x - b.x) - (b.x - a.x) * (c.y - b.y)
  if val = 0 then 0 else if val > 0 then 1 else 2

/-- `onSegment(a,b,c)`: `b` lies in the bounding box of `a` and `c`. -/
def onSegment (a b c : Point) : Bool :=
  min a.x c.x ≤ b.x ∧ b.x ≤ max a.x c.x ∧ min a.y c.y ≤ b.y ∧ b.y ≤ max a.y c.y

/-- The exact segment-intersection predicate: a proper crossing, or one of
the four collinear + bounding-box special cases. -/
def doSegmentsIntersect (p1 p2 q1 q2 : Point) : Bool :=
  let o1 := orientation p1 p2 q1
  let o2 := orientation p1 p2 q2
  let o3 := orientation q1 q2 p1
  let o4 := orientation q1 q2 p2
  if o1 ≠ o2 ∧ o3 ≠ o4 then true
  else if o1 = 0 ∧ onSegment p1 q1 p2 then true
  else if o2 = 0 ∧ onSegment p1 q2 p2 then true
  else if o3 = 0 ∧ onSegment q1 p1 q2 then true
  else if o4 = 0 ∧ onSegment q1 p2 q2 then true
  else false

/-! ### Scale calibration -/

/-- The calibration objective `Σ ((dist·s − 30·weight) / (30·weight))²`,
over a list of `(dist, weight)` pairs, one per edge (the engine computes
`dist` from the final positions; the search only uses these two numbers
per edge). -/
def calibObjective (es : List (ℚ × ℚ)) (s : ℚ) : ℚ :=
  (es.map (fun e => ((e.1 * s - 30 * e.2) / (30 * e.2)) ^ 2)).sum

/-- The calibration bisection loop.  State is `(lb, ub, mid)` where `mid`
is the last computed midpoint (the scale the source reports after the
loop).  The `fuel` argument only bounds the recursion; the loop exits when
`ub - lb ≤ 1e-4`, which provably happens within the fuel used below. -/
def calibLoop (es : List (ℚ × ℚ)) (fuel : Nat) (lb ub mid : ℚ) : ℚ × ℚ × ℚ :=
  if fuel = 0 then (lb, ub, mid)
  else if ub - lb > 1/10000 then
    let mid1 := (ub + lb) / 2
    let c1 := calibObjective es mid1
    let c2 := calibObjective es (mid1 + 1/10000)
    if c1 < c2 then calibLoop es (fuel - 1) lb mid1 mid1
    else calibLoop es (fuel - 1) mid1 ub mid1
  else (lb, ub, mid)
termination_by fuel
decreasing_by all_goals omega

/-- The scale-calibration search with the source's bounds
`lb = 0.01`, `ub = 5.01`. -/
def calibrate (es : List (ℚ × ℚ)) : ℚ × ℚ × ℚ :=
  calibLoop es 64 (1/100) (501/100) 0

/-! ### Input filtering (`filterPattern`, `countColumns`) -/

/-- A `\b` word boundary holds before the scan position: the previous
character (if any) is not a word character. -/
def prevOk (prev : Option Char) : Bool :=
  match prev with
  | none => true
  | some c => !isWordChar c

/-- A `\b` word boundary holds after a match: the next character (if any)
is not a word character. -/
def nextOk (l : List Char) : Bool :=
  match l with
  | [] => true
  | c :: _ => !isWordChar c

/-- The four characters spell `turn`, case-insensitively. -/
def isTurn4 (c1 c2 c3 c4 : Char) : Bool :=
  c1.toLower = 't' ∧ c2.toLower = 'u' ∧ c3.toLower = 'r' ∧ c4.toLower = 'n'

/-- `pattern.replace(/\bturn\b/gi, '')`: scan left to right carrying the
previous character of the original string; remove every boundary-delimited
case-insensitive `turn` and resume after it. -/
def removeTurnAux (prev : Option Char) : List Char → List Char
  | c1 :: c2 :: c3 :: c4 :: rest =>
    if prevOk prev ∧ isTurn4 c1 c2 c3 c4 ∧ nextOk rest then
      removeTurnAux (some c4) rest
    else
      c1 :: removeTurnAux (some c1) (c2 :: c3 :: c4 :: rest)
  | l => l

/-- Remove every standalone (word-boundary-delimited) `turn`. -/
def removeTurn (l : List Char) : List Char := removeTurnAux none l

/-- Token scan of `countColumns` for one line; `prevTok` is the previous
raw token (`tokens[i-1]`, present exactly when `i > 0`), `acc` the running
`columnCount`.  Cast-ons contribute their count, known techniques their
`add`, a numeric token after a technique token contributes
`add × (value - 1)`, anything else contributes nothing. -/
def countColTokens : Option (List Char) → List (List Char) → Int → Int
  | _, [], acc => acc
  | prevTok, tok :: rest, acc =>
    let token := lowerToken tok
    if token = ['c', 'o'] ∨ startsWithCo token = true then
      if token = ['c', 'o'] then
        match rest with
        | next :: rest2 =>
          match jsParseInt next with
          | some num => countColTokens (some next) rest2 (acc + num)
          | none => countColTokens (some tok) (next :: rest2) (acc + 1)
        | [] => countColTokens (some tok) [] (acc + 1)
      else
        match jsParseInt (token.drop 2) with
        | some num => countColTokens (some tok) rest (acc + num)
        | none => countColTokens (some tok) rest (acc + 1)
    else
      match findTech token with
      | some tech => countColTokens (some tok) rest (acc + tech.add)
      | none =>
        match jsParseInt token, prevTok with
        | some num, some prev =>
          match findTech (lowerToken prev) with
          | some tech => countColTokens (some tok) rest (acc + tech.add * (num - 1))
          | none => countColTokens (some tok) rest acc
        | _, _ => countColTokens (some tok) rest acc

/-- `countColumns`: the maximum per-line column count (at least 0). -/
def countColumns (pattern : String) : Int :=
  let lines := splitOnChar '\n' (jsTrimList pattern.data)
  (lines.map (fun line => countColTokens none (splitRuns line) 0)).foldl max 0

/-- `filterPattern`: remove every standalone `turn` and trim; when the first
remaining token does not start (case-insensitively) with `co`, prepend a
cast-on line `co N` with `N = countColumns` of the filtered text when that
count is positive and `N = 10` otherwise. -/
def filterPattern (pattern : String) : String :=
  let filtered := jsTrimList (removeTurn pattern.data)
  let startsCo : Bool :=
    match splitRuns filtered with
    | [] => false
    | t :: _ => startsWithCo (lowerToken t)
  if startsCo then String.mk filtered
  else
    let columnCount := countColumns (String.mk filtered)
    if columnCount > 0 then
      String.mk ('c' :: 'o' :: ' ' :: (natDigits columnCount.toNat ++ '\n' :: filtered))
    else
      String.mk ('c' :: 'o' :: ' ' :: '1' :: '0' :: '\n' :: filtered)

/-- The Process Pattern button handler's compile path: trim the raw input,
filter it, and compile the filtered pattern. -/
def processPatternResult (raw : String) : ParseResult :=
  parsePattern (filterPattern (String.mk (jsTrimList raw.data)))

/-- The exact token stream the compiler processes for an input string:
trim, split into lines, tokenize each line, concatenate. -/
def allTokens (s : String) : List (List Char) :=
  ((splitOnChar '\n' (jsTrimList s.data)).map splitRuns).flatten

/-- `true` when the 4 characters at the head of the list spell `turn`
(case-insensitively) and are followed by whitespace or the end: together
with a left token boundary this is exactly a whitespace-delimited `turn`
token starting here. -/
def isTurnAt : List Char → Bool
  | c1 :: c2 :: c3 :: c4 :: rest =>
    isTurn4 c1 c2 c3 c4 && (match rest with | [] => true | c :: _ => jsIsWs c)
  | _ => false

/-- Token scanner: `true` iff no whitespace-delimited token of the list is
(case-insensitively) `turn`.  The boolean argument records whether the scan
position is at a token boundary (start of list or after whitespace). -/
def noTurnTokens : Bool → List Char → Bool
  | _, [] => true
  | b, c :: cs =>
    if jsIsWs c then noTurnTokens true cs
    else if b ∧ isTurnAt (c :: cs) then false
    else noTurnTokens false cs

/-! ### Abbreviations used to state the verified properties -/

/-- The horizontal edge from node `s` to node `s + 1` (weight 1). -/
def mkH (s : Nat) : Edge := ⟨s, s + 1, weightH, .horizontal⟩

/-- The vertical edge from consumed node `s` to consuming node `t`
(weight 1.5). -/
def mkV (s t : Nat) : Edge := ⟨s, t, weightV, .vertical⟩

/-- A cast-on node with id `i`. -/
def mkCoNode (i : Nat) : Node := ⟨i, "co", "k", coTech⟩

/-- The `k` technique record. -/
def kTech : Technique := ⟨"k", 1, 1, false⟩

/-- A knit node with id `i`. -/
def mkKNode (i : Nat) : Node := ⟨i, "k", "k", kTech⟩

/-- The horizontal edges created by a run of `n` consecutive node creations
starting at id `c` with initial suppression-flag value `flag`: when the flag
is already off and a predecessor exists the run links back to `c - 1` and
produces `n` edges, otherwise the first creation only disarms the flag and
the run produces `n - 1` edges. -/
def hEdges (flag : Bool) (c n : Nat) : List Edge :=
  (if flag = false ∧ 0 < c then List.range' (c - 1) n else List.range' c (n - 1)).map mkH

/-- One vertical edge from every popped id to every added id, in pop order
(outer) and creation order (inner) — the enumeration order of the source. -/
def fanEdges (popped added : List Nat) : List Edge :=
  popped.flatMap (fun u => added.map (mkV u))

/-- The holding needle at the moment a technique consumes stitches: the left
needle, except that a `cursor_dir` technique swaps the needles first. -/
def holdingAtExec (tech : Technique) (st : PState) : List Nat :=
  if tech.cursor_dir then st.rightNeedle else st.leftNeedle

/-- The working needle at the moment a technique adds stitches. -/
def workingAtExec (tech : Technique) (st : PState) : List Nat :=
  if tech.cursor_dir then st.leftNeedle else st.rightNeedle

/-- The edge-suppression flag at the moment a technique adds stitches
(a `cursor_dir` technique re-arms it). -/
def flagAtExec (tech : Technique) (st : PState) : Bool :=
  if tech.cursor_dir then true else st.edgeFlag

/-- The characters of the cast-on line `co N`. -/
def coLineChars (N : Nat) : List Char := 'c' :: 'o' :: ' ' :: natDigits N

/-- The characters of a knit row: `N` tokens `k` separated by single
spaces. -/
def kLineChars : Nat → List Char
  | 0 => []
  | 1 => ['k']
  | n + 2 => 'k' :: ' ' :: kLineChars (n + 1)

/-- The single-line pattern `co N`. -/
def coPattern (N : Nat) : String := String.mk (coLineChars N)

/-- The pattern `co N` followed by `R` lines of `N` knit tokens each. -/
def coKnitPattern (N R : Nat) : String :=
  String.mk (coLineChars N ++ (List.replicate R ('\n' :: kLineChars N)).flatten)

/-- The horizontal chain produced by a cast-on of `N` stitches. -/
def coEdges (N : Nat) : List Edge := (List.range' 0 (N - 1)).map mkH

/-- The edges contributed by the `j`-th knit stitch of knit row `r ≥ 1` of
an `N`-column pattern, in creation order: its horizontal edge (absent for
`j = 0`, where the re-armed suppression flag eats it) followed by the
vertical edge from the consumed stitch of the previous row. -/
def rowPiece (N r j : Nat) : List Edge :=
  (if j = 0 then [] else [mkH (r * N + j - 1)]) ++ [mkV (r * N - 1 - j) (r * N + j)]

/-- The edges contributed by knit row `r ≥ 1` of an `N`-column pattern, in
creation order. -/
def knitRowEdges (N r : Nat) : List Edge :=
  (List.range N).flatMap (rowPiece N r)

/-- The nodes after `co N` and `r` knit rows: `N` cast-on nodes then the
knit nodes, ids dense in creation order. -/
def coKnitNodes (N r : Nat) : List Node :=
  (List.range N).map mkCoNode ++ (List.range' N (r * N)).map mkKNode

/-- The edges after `co N` and `r` knit rows. -/
def coKnitEdges (N r : Nat) : List Edge :=
  coEdges N ++ (List.range' 1 r).flatMap (knitRowEdges N)

/-- The compiler state after `co N` and `R` knit rows, including the final
end-of-line rotation: all ids dense, the last row waiting on the holding
needle, the working needle empty and the suppression flag re-armed. -/
def coKnitState (N R : Nat) : PState :=
  ⟨coKnitNodes N R, coKnitEdges N R, [], List.range' (R * N) N, (R + 1) * N, true⟩

/-- The compiler state in the middle of knit row `r + 1` (`r` completed
knit rows), after `j` of its `N` knit tokens. -/
def midState (N r j : Nat) : PState :=
  ⟨coKnitNodes N r ++ (List.range' ((r + 1) * N) j).map mkKNode,
   coKnitEdges N r ++ (List.range j).flatMap (rowPiece N (r + 1)),
   List.range' ((r + 1) * N) j,
   List.range' (r * N) (N - j),
   (r + 1) * N + j,
   if j = 0 then true else false⟩

/-- The `(dist, weight)` pairs of the 3-node / 2-edge chain used by the
spec's calibration example: nodes at `x = 0, 30, 60` on one axis, both
edges of weight 1, so both realized distances are exactly 30. -/
def chainCalib : List (ℚ × ℚ) := [(30, 1), (30, 1)]

/-- Sum of `(dist / (30·weight))²` over the edges: the leading coefficient
of the (quadratic in `s`) calibration objective. -/
def calibQuad (es : List (ℚ × ℚ)) : ℚ :=
  (es.map (fun e => (e.1 / (30 * e.2)) ^ 2)).sum

/-- The structural invariants of a compiler state: node ids are the dense
integers `0..count-1` in creation order, and every horizontal edge joins
consecutively created nodes. -/
def GoodState (st : PState) : Prop :=
  st.allNodes.map Node.id = List.range st.count ∧
  ∀ e ∈ st.allEdges, e.type = .horizontal → e.target = e.source + 1

/-- Suppression invariant used for the boundary property: relative to a
boundary state with next id `c0` and edge list `base`, either the flag is
still armed and no node has been created since, or some node has been; in
both cases no horizontal edge targeting `c0` has been added beyond `base`. -/
def Suppressed (c0 : Nat) (base : List Edge) (st : PState) : Prop :=
  (st.count = c0 ∧ st.edgeFlag = true ∨ c0 < st.count) ∧
  ∀ e ∈ st.allEdges, e.type = .horizontal → e.target = c0 → e ∈ base

/-! ## Theorems -/

/-- The truth-table form of the segment-intersection predicate: the general
case or one of the four collinear special cases. -/
theorem doSegmentsIntersect_iff (p1 p2 q1 q2 : Point) :
    doSegmentsIntersect p1 p2 q1 q2 = true ↔
      ((orientation p1 p2 q1 ≠ orientation p1 p2 q2 ∧
        orientation q1 q2 p1 ≠ orientation q1 q2 p2) ∨
       (orientation p1 p2 q1 = 0 ∧ onSegment p1 q1 p2 = true) ∨
       (orientation p1 p2 q2 = 0 ∧ onSegment p1 q2 p2 = true) ∨
       (orientation q1 q2 p1 = 0 ∧ onSegment q1 p1 q2 = true) ∨
       (orientation q1 q2 p2 = 0 ∧ onSegment q1 p2 q2 = true)) := by
  simp only [doSegmentsIntersect]
  split_ifs <;> simp_all

/-- C8: the segment-intersection predicate is symmetric in its two segments;
it reports `true` for the collinear overlapping segments `(0,0)–(2,0)` and
`(1,0)–(3,0)`; and it reports `false` for `(0,0)–(2,2)` and `(2,0)–(3,0)`,
which do not cross although the endpoint `(2,0)` of the second lies inside
the bounding box of the first. -/
theorem claim_C8 :
    (∀ p1 p2 q1 q2 : Point, doSegmentsIntersect p1 p2 q1 q2 = doSegmentsIntersect q1 q2 p1 p2) ∧
    doSegmentsIntersect ⟨0, 0⟩ ⟨2, 0⟩ ⟨1, 0⟩ ⟨3, 0⟩ = true ∧
    doSegmentsIntersect ⟨0, 0⟩ ⟨2, 2⟩ ⟨2, 0⟩ ⟨3, 0⟩ = false := by
  refine ⟨?_, ?_, ?_⟩
  · intro p1 p2 q1 q2
    rw [Bool.eq_iff_iff, doSegmentsIntersect_iff, doSegmentsIntersect_iff]
    tauto
  · norm_num [doSegmentsIntersect, orientation, onSegment]
  · norm_num [doSegmentsIntersect, orientation, onSegment]

/-- C7 (counterexample): for a single node at `(10, 20)` both extents are
degenerate, so both remapped coordinates are `NaN`; the code then assigns
the fallback position `(500, 300)`, whose `y` is not the `y`-axis domain
center `500` claimed by the spec. -/
theorem claim_C7_counterexample :
    remapNodes [⟨0, "co", "k", coTech, 10, 20⟩] = [⟨0, "co", "k", coTech, 500, 300⟩] ∧
    remapCoord 20 20 20 = none ∧
    (300 : ℚ) ≠ 500 := by
  have h1 : remapCoord (10 : ℚ) 10 10 = none := by unfold remapCoord; norm_num
  have h2 : remapCoord (20 : ℚ) 20 20 = none := by unfold remapCoord; norm_num
  refine ⟨?_, h2, by norm_num⟩
  simp only [remapNodes, listMin, listMax, List.map, List.foldl]
  simp only [remapNode, h1, h2]

/-- C7 (amended): whenever either remapped coordinate of a node is not a
number, the node is assigned the fixed fallback position `x = 500`,
`y = 300` (both axes overwritten); the remap pass never raises and always
yields one position per input node. -/
theorem claim_C7_amended :
    (∀ (ex ey : ℚ × ℚ) (n : PNode),
      (remapCoord n.x ex.1 ex.2 = none ∨ remapCoord n.y ey.1 ey.2 = none) →
      remapNode ex ey n = { n with x := 500, y := 300 }) ∧
    (∀ nodes : List PNode, (remapNodes nodes).length = nodes.length) := by
  constructor
  · intro ex ey n h
    rcases h with h | h
    · cases hy : remapCoord n.y ey.1 ey.2 <;> simp [remapNode, h, hy]
    · cases hx : remapCoord n.x ex.1 ex.2 <;> simp [remapNode, h, hx]
  · intro nodes
    simp [remapNodes]

/-- C7 (witness for the amended claim): the concrete degenerate node of the
counterexample is sent to `(500, 300)` by the amended theorem. -/
theorem claim_C7_amended_witness :
    remapNode (10, 10) (20, 20) ⟨0, "co", "k", coTech, 10, 20⟩ =
      { (⟨0, "co", "k", coTech, 10, 20⟩ : PNode) with x := 500, y := 300 } ∧
    (remapNodes [] : List PNode).length = ([] : List PNode).length :=
  ⟨claim_C7_amended.1 (10, 10) (20, 20) ⟨0, "co", "k", coTech, 10, 20⟩
      (Or.inl (by unfold remapCoord; norm_num)),
   claim_C7_amended.2 []⟩

/-- C9 (counterexample): on the spec's own 3-node / 2-edge chain (both
edges of weight 1 and realized length 30, nodes at `x = 0, 30, 60`) the
calibration loop ends with a lower-bound move, and perturbing the resulting
scale by `+1e-4` strictly decreases the objective; so the claimed two-sided
`±1e-4` "does not decrease" property fails, although the loop does
terminate with `ub - lb ≤ 1e-4`. -/
theorem claim_C9_counterexample :
    chainCalib ≠ [] ∧ (∀ e ∈ chainCalib, 0 < e.1 ∧ 0 < e.2) ∧
    ((calibrate chainCalib).2.1 - (calibrate chainCalib).1 ≤ 1/10000) ∧
    calibObjective chainCalib ((calibrate chainCalib).2.2 + 1/10000) <
      calibObjective chainCalib ((calibrate chainCalib).2.2) := by
  refine ⟨by simp [chainCalib], by norm_num [chainCalib], ?_, ?_⟩
  · unfold calibrate
    repeat (rw [calibLoop.eq_def]; norm_num [calibObjective, chainCalib])
  · unfold calibrate
    repeat (rw [calibLoop.eq_def]; norm_num [calibObjective, chainCalib])

/-- When the interval is already within tolerance the loop returns its
state unchanged, whatever the fuel. -/
theorem calibLoop_exit (es : List (ℚ × ℚ)) (fuel : Nat) (lb ub mid : ℚ)
    (h : ¬(ub - lb > 1/10000)) : calibLoop es fuel lb ub mid = (lb, ub, mid) := by
  rw [calibLoop.eq_def]
  split_ifs <;> simp_all

/-- Midpoint identity of the (quadratic) calibration objective: the values
at `x - ε` and `x + ε` average to the value at `x` plus `ε² · calibQuad`. -/
theorem calibObjective_midpoint (es : List (ℚ × ℚ)) (x ε : ℚ) :
    calibObjective es (x - ε) + calibObjective es (x + ε) =
      2 * calibObjective es x + 2 * ε ^ 2 * calibQuad es := by
  induction es with
  | nil => simp [calibObjective, calibQuad]
  | cons e es ih =>
    simp only [calibObjective, calibQuad, List.map_cons, List.sum_cons] at *
    have hring : ((e.1 * (x - ε) - 30 * e.2) / (30 * e.2)) ^ 2 +
        ((e.1 * (x + ε) - 30 * e.2) / (30 * e.2)) ^ 2 =
        2 * ((e.1 * x - 30 * e.2) / (30 * e.2)) ^ 2 + 2 * ε ^ 2 * (e.1 / (30 * e.2)) ^ 2 := by
      field_simp
      ring
    linarith [ih, hring]

/-- The quadratic coefficient of the objective is a sum of squares. -/
theorem calibQuad_nonneg (es : List (ℚ × ℚ)) : 0 ≤ calibQuad es := by
  induction es with
  | nil => simp [calibQuad]
  | cons e es ih =>
    simp only [calibQuad, List.map_cons, List.sum_cons] at *
    positivity

/-- Behaviour of the calibration loop with enough fuel: it exits with
`ub - lb ≤ 1e-4`, and the final `mid` cannot be improved by the probe step
in the direction of the bound the final comparison moved — perturbing it by
`+1e-4` (after an upper-bound move) or `-1e-4` (after a lower-bound move)
does not decrease the objective. -/
theorem calibLoop_spec (es : List (ℚ × ℚ)) : ∀ (fuel : Nat) (lb ub mid0 : ℚ),
    1/10000 < ub - lb →
    ub - lb ≤ (2 ^ fuel : ℚ) / 10000 →
    (calibLoop es fuel lb ub mid0).2.1 - (calibLoop es fuel lb ub mid0).1 ≤ 1/10000 ∧
    (calibObjective es ((calibLoop es fuel lb ub mid0).2.2) ≤
       calibObjective es ((calibLoop es fuel lb ub mid0).2.2 + 1/10000) ∨
     calibObjective es ((calibLoop es fuel lb ub mid0).2.2) ≤
       calibObjective es ((calibLoop es fuel lb ub mid0).2.2 - 1/10000)) := by
  intro fuel
  induction fuel with
  | zero =>
    intro lb ub mid0 h1 h2
    norm_num at h2
    linarith
  | succ fuel ih =>
    intro lb ub mid0 h1 h2
    rw [calibLoop.eq_def]
    simp only [Nat.succ_ne_zero, if_false, Nat.add_sub_cancel]
    rw [if_pos h1]
    set mid1 := (ub + lb) / 2 with hmid1
    have hw : mid1 - lb = (ub - lb) / 2 ∧ ub - mid1 = (ub - lb) / 2 := by
      constructor <;> (rw [hmid1]; ring)
    by_cases hc : calibObjective es mid1 < calibObjective es (mid1 + 1/10000)
    · rw [if_pos hc]
      by_cases hw2 : 1/10000 < mid1 - lb
      · exact ih lb mid1 mid1 hw2 (by
          rw [hw.1]
          rw [pow_succ] at h2
          linarith)
      · rw [calibLoop_exit es fuel lb mid1 mid1 hw2]
        refine ⟨by simpa using hw2, Or.inl (le_of_lt hc)⟩
    · rw [if_neg hc]
      by_cases hw2 : 1/10000 < ub - mid1
      · exact ih mid1 ub mid1 hw2 (by
          rw [hw.2]
          rw [pow_succ] at h2
          linarith)
      · rw [calibLoop_exit es fuel mid1 ub mid1 hw2]
        refine ⟨by simpa using hw2, Or.inr ?_⟩
        push_neg at hc
        have hmp := calibObjective_midpoint es mid1 (1/10000)
        have hq := calibQuad_nonneg es
        nlinarith [hmp, hq, hc]

/-- C9 (amended): for every non-empty edge set with positive weights and
positive distances, the scale-calibration loop terminates with
`ub - lb ≤ 1e-4`, and at the resulting scale `s` the perturbation probe in
the direction of the final bisection move does not decrease the objective:
the objective at `s` is no larger than at `s + 1e-4` or no larger than at
`s - 1e-4` (the full two-sided property fails, see the counterexample). -/
theorem claim_C9_amended (es : List (ℚ × ℚ)) (_hne : es ≠ [])
    (_hpos : ∀ e ∈ es, 0 < e.1 ∧ 0 < e.2) :
    (calibrate es).2.1 - (calibrate es).1 ≤ 1/10000 ∧
    (calibObjective es ((calibrate es).2.2) ≤
       calibObjective es ((calibrate es).2.2 + 1/10000) ∨
     calibObjective es ((calibrate es).2.2) ≤
       calibObjective es ((calibrate es).2.2 - 1/10000)) := by
  unfold calibrate
  exact calibLoop_spec es 64 (1/100) (501/100) 0 (by norm_num) (by norm_num)

/-! ### Characterization of the compiler's primitive loops -/

/-- `hEdges` of an empty run is empty. -/
theorem hEdges_zero (flag : Bool) (c : Nat) : hEdges flag c 0 = [] := by
  unfold hEdges
  split_ifs <;> simp

/-- Evaluation of `hEdges` when the flag is off and a predecessor exists. -/
theorem hEdges_off (c n : Nat) (h : 0 < c) :
    hEdges false c n = List.map mkH (List.range' (c - 1) n) := by
  unfold hEdges
  rw [if_pos ⟨rfl, h⟩]

/-- Evaluation of `hEdges` when the flag is off but no node exists yet. -/
theorem hEdges_off_zero (n : Nat) :
    hEdges false 0 n = List.map mkH (List.range' 0 (n - 1)) := by
  unfold hEdges
  rw [if_neg (by simp)]

/-- Evaluation of `hEdges` when the flag is armed. -/
theorem hEdges_on (c n : Nat) :
    hEdges true c n = List.map mkH (List.range' c (n - 1)) := by
  unfold hEdges
  rw [if_neg (by simp)]

/-- Splitting one node creation off the front of a run of horizontal
edges. -/
theorem hEdges_one_add (flag : Bool) (c n : Nat) :
    hEdges flag c 1 ++ hEdges false (c + 1) n = hEdges flag c (n + 1) := by
  have hc1 : c + 1 - 1 = c := by omega
  cases flag with
  | false =>
    by_cases h2 : 0 < c
    · rw [hEdges_off c 1 h2, hEdges_off (c + 1) n (by omega), hEdges_off c (n + 1) h2, hc1]
      rw [show List.range' (c - 1) (n + 1) = (c - 1) :: List.range' (c - 1 + 1) n from
        List.range'_succ (c - 1) n 1]
      rw [show c - 1 + 1 = c from by omega]
      simp [List.range'_one]
    · rw [show c = 0 from by omega]
      rw [hEdges_off_zero 1, hEdges_off 1 n (by omega), hEdges_off_zero (n + 1)]
      simp
  | true =>
    rw [hEdges_on c 1, hEdges_off (c + 1) n (by omega), hEdges_on c (n + 1), hc1]
    simp

/-- Explicit form of one node creation. -/
theorem addStitchNode_eq (ty ch : String) (tech : Technique) (st : PState) :
    addStitchNode ty ch tech st =
      ⟨st.allNodes ++ [⟨st.count, ty, ch, tech⟩],
       st.allEdges ++ hEdges st.edgeFlag st.count 1,
       st.rightNeedle ++ [st.count], st.leftNeedle, st.count + 1, false⟩ := by
  unfold addStitchNode
  by_cases h : st.edgeFlag = false ∧ 0 < st.count
  · rw [if_pos h, h.1, hEdges_off st.count 1 h.2]
    have hc : st.count - 1 + 1 = st.count := by omega
    simp [mkH, weightH, List.range'_one, hc, h.1]
  · rw [if_neg h]
    rcases Bool.eq_false_or_eq_true st.edgeFlag with hf | hf
    · rw [hf, hEdges_on st.count 1]
      simp
    · have hc : st.count = 0 := by
        rcases Nat.eq_zero_or_pos st.count with h0 | h0
        · exact h0
        · exact absurd ⟨hf, h0⟩ h
      rw [hf, hc, hEdges_off_zero 1]
      simp

/-- Explicit form of the node-creation loop: `n` fresh nodes with dense ids
from `count`, the corresponding horizontal edges, ids pushed on the working
needle and collected in `addedStitches`; the suppression flag is off
afterwards whenever at least one node was created. -/
theorem addLoop_eq (ty ch : String) (tech : Technique) : ∀ (n : Nat) (st : PState) (added : List Nat),
    addLoop ty ch tech n st added =
      (⟨st.allNodes ++ (List.range' st.count n).map (fun i => ⟨i, ty, ch, tech⟩),
        st.allEdges ++ hEdges st.edgeFlag st.count n,
        st.rightNeedle ++ List.range' st.count n,
        st.leftNeedle, st.count + n,
        if n = 0 then st.edgeFlag else false⟩,
       added ++ List.range' st.count n) := by
  intro n
  induction n with
  | zero =>
    intro st added
    simp [addLoop, hEdges_zero]
  | succ n ih =>
    intro st added
    rw [addLoop, ih (addStitchNode ty ch tech st) (added ++ [st.count]), addStitchNode_eq]
    rw [show List.range' st.count (n + 1) = st.count :: List.range' (st.count + 1) n from
      List.range'_succ st.count n 1]
    refine congrArg₂ Prod.mk ?_ (by simp)
    refine PState.ext (by simp) ?_ (by simp) rfl (by simp; omega) (by simp)
    simp only [List.append_assoc]
    rw [hEdges_one_add]

/-- Explicit form of the `kill` loop when the holding needle holds enough
stitches: the last `k` ids are popped (in reverse order), each contributing
a vertical edge to every added id. -/
theorem killLoop_ok (ty : String) (added : List Nat) : ∀ (k : Nat) (st : PState),
    k ≤ st.leftNeedle.length →
    killLoop ty added k st = .ok
      { st with
        leftNeedle := st.leftNeedle.take (st.leftNeedle.length - k),
        allEdges := st.allEdges ++ fanEdges (st.leftNeedle.reverse.take k) added } := by
  intro k
  induction k with
  | zero =>
    intro st _
    simp [killLoop, fanEdges]
  | succ k ih =>
    intro st hk
    rcases List.eq_nil_or_concat st.leftNeedle with hnil | ⟨L, u, hL⟩
    · rw [hnil] at hk
      simp at hk
    · rw [List.concat_eq_append] at hL
      have hlen : st.leftNeedle.length = L.length + 1 := by rw [hL]; simp
      have hk2 : k ≤ L.length := by omega
      rw [killLoop, hL, List.getLast?_concat]
      simp only [List.dropLast_concat]
      rw [ih _ (by simpa using hk2)]
      congr 1
      refine PState.ext rfl ?_ rfl ?_ rfl rfl
      · simp only [List.append_assoc]
        rw [List.reverse_append, List.reverse_singleton]
        simp only [List.singleton_append, List.take_succ_cons]
        rw [show fanEdges (u :: List.take k L.reverse) added =
              added.map (mkV u) ++ fanEdges (List.take k L.reverse) added from by
            simp [fanEdges]]
        rfl
      · rw [show (L ++ [u]).length - (k + 1) = L.length - k from by simp,
          List.take_append_of_le_length (by omega)]

/-- Explicit form of one technique execution when the holding needle holds
at least `kill` stitches: optional swap, `add` fresh nodes with their
horizontal edges, then `kill` pops each fanning a vertical edge to every
added node. -/
theorem techStep_ok (stitch : List Char) (tech : Technique) (st : PState)
    (hk : tech.kill ≤ (holdingAtExec tech st).length) :
    techStep stitch tech st = .ok
      ⟨st.allNodes ++ (List.range' st.count tech.add).map
          (fun i => ⟨i, String.mk stitch, tech.character, tech⟩),
       st.allEdges ++ hEdges (flagAtExec tech st) st.count tech.add ++
         fanEdges ((holdingAtExec tech st).reverse.take tech.kill)
           (List.range' st.count tech.add),
       workingAtExec tech st ++ List.range' st.count tech.add,
       (holdingAtExec tech st).take ((holdingAtExec tech st).length - tech.kill),
       st.count + tech.add,
       if tech.add = 0 then flagAtExec tech st else false⟩ := by
  unfold holdingAtExec workingAtExec flagAtExec at *
  unfold techStep runKill
  cases hcd : tech.cursor_dir
  · rw [if_neg (by simp [hcd])]
    rw [hcd] at hk
    simp only [Bool.false_eq_true, if_false] at hk ⊢
    rw [addLoop_eq]
    simp only [List.nil_append]
    rw [killLoop_ok _ _ _ _ (by simpa using hk)]
  · rw [if_pos (by simp [hcd])]
    rw [hcd] at hk
    simp only [if_true] at hk ⊢
    rw [addLoop_eq]
    simp only [List.nil_append]
    rw [killLoop_ok _ _ _ _ (by simpa using hk)]

/-- The token loop on an empty token list. -/
theorem processTokens_nil (st : PState) : processTokens [] st = .ok st := by
  rw [processTokens]

/-- The token loop on a known technique token (not starting with `co`):
execute the technique and continue, or surface its error. -/
theorem processTokens_tech (tok : List Char) (rest : List (List Char)) (st : PState)
    (tech : Technique)
    (h1 : startsWithCo (lowerToken tok) = false)
    (h2 : findTech (lowerToken tok) = some tech) :
    processTokens (tok :: rest) st =
      match techStep (lowerToken tok) tech st with
      | .ok st1 => processTokens rest st1
      | .error e => .error e := by
  have hco : ¬(lowerToken tok = ['c', 'o'] ∨ startsWithCo (lowerToken tok) = true) := by
    rintro (h | h)
    · rw [h] at h1
      simp [startsWithCo] at h1
    · rw [h1] at h
      exact absurd h (by simp)
  rw [processTokens.eq_def]
  dsimp only
  rw [if_neg hco, h2]

/-- The token loop on a token of the reserved cable shape is a no-op. -/
theorem processTokens_cable (tok : List Char) (rest : List (List Char)) (st : PState)
    (h1 : startsWithCo (lowerToken tok) = false)
    (h2 : findTech (lowerToken tok) = none)
    (h3 : (lowerToken tok).head? = some 'c' ∧ (lowerToken tok).getLast? = some 'c') :
    processTokens (tok :: rest) st = processTokens rest st := by
  have hco : ¬(lowerToken tok = ['c', 'o'] ∨ startsWithCo (lowerToken tok) = true) := by
    rintro (h | h)
    · rw [h] at h1
      simp [startsWithCo] at h1
    · rw [h1] at h
      exact absurd h (by simp)
  rw [processTokens.eq_def]
  dsimp only
  rw [if_neg hco, h2, if_pos h3]

/-- The token loop on an unrecognized token fails naming it. -/
theorem processTokens_unknown (tok : List Char) (rest : List (List Char)) (st : PState)
    (h1 : startsWithCo (lowerToken tok) = false)
    (h2 : findTech (lowerToken tok) = none)
    (h3 : ¬((lowerToken tok).head? = some 'c' ∧ (lowerToken tok).getLast? = some 'c')) :
    processTokens (tok :: rest) st = .error (.unknownStitch (String.mk (lowerToken tok))) := by
  have hco : ¬(lowerToken tok = ['c', 'o'] ∨ startsWithCo (lowerToken tok) = true) := by
    rintro (h | h)
    · rw [h] at h1
      simp [startsWithCo] at h1
    · rw [h1] at h
      exact absurd h (by simp)
  rw [processTokens.eq_def]
  dsimp only
  rw [if_neg hco, h2, if_neg h3]

/-- The token loop on a bare `co` followed by a numeric token: consume the
number and cast on that many stitches. -/
theorem processTokens_co_consume (tok next : List Char) (rest2 : List (List Char))
    (st : PState) (num : Int)
    (hlc : lowerToken tok = ['c', 'o'])
    (hnum : jsParseInt next = some num) :
    processTokens (tok :: next :: rest2) st =
      processTokens rest2 (castOnLoop num.toNat st) := by
  rw [processTokens.eq_def]
  dsimp only
  rw [if_pos (Or.inl hlc), if_pos hlc, hnum]

/-- A technique with positive `kill` executed with an empty holding needle
fails naming the technique. -/
theorem techStep_underflow (stitch : List Char) (tech : Technique) (st : PState)
    (hk : 0 < tech.kill) (h : holdingAtExec tech st = []) :
    techStep stitch tech st = .error (.leftNeedleEmpty (String.mk stitch)) := by
  unfold holdingAtExec at h
  unfold techStep runKill
  rcases Nat.exists_eq_add_of_lt hk with ⟨k, hk2⟩
  cases hcd : tech.cursor_dir
  · rw [hcd] at h
    simp only [Bool.false_eq_true, if_false] at h ⊢
    rw [addLoop_eq]
    rw [hk2, Nat.zero_add, killLoop]
    rw [show (⟨st.allNodes ++ List.map (fun i =>
          { id := i, type := String.mk stitch, character := tech.character, technique := tech })
          (List.range' st.count tech.add),
        st.allEdges ++ hEdges st.edgeFlag st.count tech.add,
        st.rightNeedle ++ List.range' st.count tech.add, st.leftNeedle,
        st.count + tech.add,
        if tech.add = 0 then st.edgeFlag else false⟩ : PState).leftNeedle.getLast? = none from by
      rw [h]; rfl]
  · rw [hcd] at h
    simp only [if_true] at h ⊢
    rw [addLoop_eq]
    rw [hk2, Nat.zero_add, killLoop]
    rw [show (⟨st.allNodes ++ List.map (fun i =>
          { id := i, type := String.mk stitch, character := tech.character, technique := tech })
          (List.range' st.count tech.add),
        st.allEdges ++ hEdges true st.count tech.add,
        st.leftNeedle ++ List.range' st.count tech.add, st.rightNeedle,
        st.count + tech.add,
        if tech.add = 0 then true else false⟩ : PState).leftNeedle.getLast? = none from by
      rw [h]; rfl]

/-- The line loop on no lines. -/
theorem processLines_nil (st : PState) : processLines [] st = .ok st := by
  rw [processLines]

/-- A line whose trimmed form is empty is skipped entirely. -/
theorem processLines_skip (line : List Char) (rest : List (List Char)) (st : PState)
    (h : splitRuns line = []) :
    processLines (line :: rest) st = processLines rest st := by
  rw [processLines.eq_def]
  dsimp only
  rw [h]

/-- A line with tokens runs the token loop then the end-of-line rule. -/
theorem processLines_run (line : List Char) (rest : List (List Char)) (st : PState)
    (t : List Char) (ts : List (List Char)) (h : splitRuns line = t :: ts) :
    processLines (line :: rest) st =
      match processTokens (t :: ts) st with
      | .ok st1 => processLines rest (endOfLine st1)
      | .error e => .error e := by
  rw [processLines.eq_def]
  dsimp only
  rw [h]

/-- `dropWhile` on a list none of whose elements satisfies the predicate. -/
theorem dropWhile_no (p : Char → Bool) (l : List Char) (h : ∀ c ∈ l, p c = false) :
    l.dropWhile p = l := by
  cases l with
  | nil => rfl
  | cons c cs =>
    rw [List.dropWhile_cons, if_neg (by simp [h c (by simp)])]

/-- Trimming a whitespace-free character list is the identity. -/
theorem jsTrimList_no_ws (l : List Char) (h : ∀ c ∈ l, jsIsWs c = false) :
    jsTrimList l = l := by
  unfold jsTrimList trimLeft
  rw [dropWhile_no _ _ h,
    dropWhile_no _ _ (fun c hc => h c (List.mem_reverse.mp hc)),
    List.reverse_reverse]

/-- Splitting on a character that does not occur yields the singleton. -/
theorem splitOnChar_no_sep (sep : Char) (l : List Char) (h : ∀ c ∈ l, c ≠ sep) :
    splitOnChar sep l = [l] := by
  induction l with
  | nil => rfl
  | cons c cs ih =>
    rw [splitOnChar, if_neg (by simpa using h c (by simp))]
    rw [ih (fun x hx => h x (by simp [hx]))]

/-- A non-empty whitespace-free character list is a single token. -/
theorem splitRuns_single (l : List Char) (hne : l ≠ []) (h : ∀ c ∈ l, jsIsWs c = false) :
    splitRuns l = [l] := by
  induction l with
  | nil => exact absurd rfl hne
  | cons c cs ih =>
    cases cs with
    | nil =>
      rw [splitRuns, if_neg (by simp [h c (by simp)])]
    | cons d ds =>
      rw [splitRuns, if_neg (by simp [h c (by simp)]), if_neg (by simp [h d (by simp)])]
      rw [ih (by simp) (fun x hx => h x (by simp [hx]))]

/-- A compile error in the state machine surfaces as the failed result with
empty arrays. -/
theorem parsePattern_of_error (p : String) (e : ParseError) (h : parseState p = .error e) :
    parsePattern p = ⟨[], [], false, some e⟩ := by
  unfold parsePattern
  rw [h]

/-- A successful run surfaces the accumulated graph. -/
theorem parsePattern_of_ok (p : String) (st : PState) (h : parseState p = .ok st) :
    parsePattern p = ⟨st.allNodes, st.allEdges, true, none⟩ := by
  unfold parsePattern
  rw [h]

/-- C2: a known technique with `kill > 0` executed while the holding needle
is empty makes the token loop fail with `leftNeedleEmpty` naming the
technique; and every failed compile returns `success = false` with empty
node and edge arrays and the error — never a partial graph. -/
theorem claim_C2 :
    (∀ (tok : List Char) (rest : List (List Char)) (st : PState) (tech : Technique),
        startsWithCo (lowerToken tok) = false →
        findTech (lowerToken tok) = some tech →
        0 < tech.kill →
        holdingAtExec tech st = [] →
        processTokens (tok :: rest) st = .error (.leftNeedleEmpty (String.mk (lowerToken tok)))) ∧
    (∀ p : String, (parsePattern p).success = false →
        (parsePattern p).nodes = [] ∧ (parsePattern p).edges = [] ∧
        (parsePattern p).error.isSome = true) := by
  constructor
  · intro tok rest st tech h1 h2 hkill hempty
    rw [processTokens_tech tok rest st tech h1 h2,
      techStep_underflow (lowerToken tok) tech st hkill hempty]
  · intro p hfail
    unfold parsePattern at *
    cases hps : parseState p with
    | ok st => rw [hps] at hfail; simp at hfail
    | error e => exact ⟨rfl, rfl, rfl⟩

/-- C2 (witness): `k2tog` as the very first token underflows, and the
single-token pattern `k2tog` compiles to the failed result. -/
theorem claim_C2_witness :
    processTokens ["k2tog".data] initState =
      .error (.leftNeedleEmpty (String.mk (lowerToken "k2tog".data))) ∧
    ((parsePattern "k2tog").nodes = [] ∧ (parsePattern "k2tog").edges = [] ∧
      (parsePattern "k2tog").error.isSome = true) :=
  ⟨claim_C2.1 "k2tog".data [] initState ⟨"k", 2, 1, false⟩ (by decide) (by decide)
      (by decide) (by decide),
   claim_C2.2 "k2tog" (by rfl)⟩

/-- C3 (counterexample): the token `cox` is not a recognized technique, not
a bare `co`, not `co` fused with a trailing integer, and not of the cable
shape, so the claim says compilation must fail; but the code treats every
token starting with `co` as a cast-on (here with the default count 1), and
the pattern compiles successfully. -/
theorem claim_C3_counterexample :
    findTech (lowerToken "cox".data) = none ∧
    lowerToken "cox".data ≠ "co".data ∧
    jsParseInt ((lowerToken "cox".data).drop 2) = none ∧
    ¬((lowerToken "cox".data).head? = some 'c' ∧ (lowerToken "cox".data).getLast? = some 'c') ∧
    (parsePattern "cox").success = true ∧
    (parsePattern "cox").error = none :=
  ⟨by decide, by decide, by decide, by decide, rfl, rfl⟩

/-- C3 (amended): every token that does not start with `co`
(case-insensitively), is not a recognized technique name, and does not both
start and end with `c`, makes the token loop fail with an error naming the
lowercased token; a pattern consisting of exactly such a token fails the
same way with no partial graph. -/
theorem claim_C3_amended :
    (∀ (tok : List Char) (rest : List (List Char)) (st : PState),
      startsWithCo (lowerToken tok) = false →
      findTech (lowerToken tok) = none →
      ¬((lowerToken tok).head? = some 'c' ∧ (lowerToken tok).getLast? = some 'c') →
      processTokens (tok :: rest) st = .error (.unknownStitch (String.mk (lowerToken tok)))) ∧
    (∀ tok : List Char, tok ≠ [] → (∀ c ∈ tok, jsIsWs c = false) →
      startsWithCo (lowerToken tok) = false →
      findTech (lowerToken tok) = none →
      ¬((lowerToken tok).head? = some 'c' ∧ (lowerToken tok).getLast? = some 'c') →
      parsePattern (String.mk tok) =
        ⟨[], [], false, some (.unknownStitch (String.mk (lowerToken tok)))⟩) := by
  constructor
  · exact processTokens_unknown
  · intro tok hne hws h1 h2 h3
    have htrim : jsTrimList tok = tok := jsTrimList_no_ws tok hws
    have hsplit : splitOnChar '\n' tok = [tok] :=
      splitOnChar_no_sep '\n' tok (fun c hc => by
        intro hceq
        have := hws c hc
        rw [hceq] at this
        simp [jsIsWs] at this)
    have hruns : splitRuns tok = [tok] := splitRuns_single tok hne hws
    apply parsePattern_of_error
    unfold parseState
    rw [show (String.mk tok).data = tok from rfl, htrim, hsplit,
      processLines_run tok [] initState tok [] hruns,
      processTokens_unknown tok [] initState h1 h2 h3]

/-- C3 (witness for the amended claim): the unknown token `xyz`. -/
theorem claim_C3_amended_witness :
    processTokens ["xyz".data] initState =
      .error (.unknownStitch (String.mk (lowerToken "xyz".data))) ∧
    parsePattern (String.mk "xyz".data) =
      ⟨[], [], false, some (.unknownStitch (String.mk (lowerToken "xyz".data)))⟩ :=
  ⟨claim_C3_amended.1 "xyz".data [] initState (by decide) (by decide) (by decide),
   claim_C3_amended.2 "xyz".data (by decide) (by decide) (by decide) (by decide) (by decide)⟩

/-- Every horizontal edge of an `hEdges` run has weight 1. -/
theorem hEdges_mem (flag : Bool) (c n : Nat) :
    ∀ e ∈ hEdges flag c n, e.type = .horizontal ∧ e.weight = 1 := by
  intro e he
  unfold hEdges at he
  split_ifs at he <;>
    (rcases List.mem_map.mp he with ⟨s, _, rfl⟩; exact ⟨rfl, rfl⟩)

/-- The fan always creates `popped × added` edges. -/
theorem fanEdges_length (popped added : List Nat) :
    (fanEdges popped added).length = popped.length * added.length := by
  induction popped with
  | nil => simp [fanEdges]
  | cons u P ih =>
    simp only [fanEdges, List.flatMap_cons, List.length_append, List.length_map] at *
    rw [ih, List.length_cons]
    ring

/-- Every fan edge is vertical of weight 1.5, joining a popped id to an
added id. -/
theorem fanEdges_mem (popped added : List Nat) :
    ∀ e ∈ fanEdges popped added, e.type = .vertical ∧ e.weight = 3/2 := by
  intro e he
  unfold fanEdges at he
  rcases List.mem_flatMap.mp he with ⟨u, _, hm⟩
  rcases List.mem_map.mp hm with ⟨a, _, rfl⟩
  exact ⟨rfl, rfl⟩

/-- Each popped id fans to each added id. -/
theorem fanEdges_complete (popped added : List Nat) :
    ∀ u ∈ popped, ∀ a ∈ added, mkV u a ∈ fanEdges popped added := by
  intro u hu a ha
  unfold fanEdges
  exact List.mem_flatMap.mpr ⟨u, hu, List.mem_map.mpr ⟨a, ha, rfl⟩⟩

/-- C4: a known technique step with enough stitches on the holding needle
pops exactly `kill` ids (in reverse needle order) and gives each of them a
vertical edge of weight 1.5 to every one of the `add` nodes created in the
step — `kill × add` vertical edges in total, covering fan-out and fan-in —
while every horizontal edge it creates has weight 1. -/
theorem claim_C4 (tok : List Char) (rest : List (List Char)) (st : PState) (tech : Technique)
    (h1 : startsWithCo (lowerToken tok) = false)
    (h2 : findTech (lowerToken tok) = some tech)
    (hk : tech.kill ≤ (holdingAtExec tech st).length) :
    ∃ (st1 : PState) (hPart : List Edge),
      techStep (lowerToken tok) tech st = .ok st1 ∧
      processTokens (tok :: rest) st = processTokens rest st1 ∧
      st1.allEdges = st.allEdges ++ hPart ++
        fanEdges ((holdingAtExec tech st).reverse.take tech.kill)
          (List.range' st.count tech.add) ∧
      (∀ e ∈ hPart, e.type = .horizontal ∧ e.weight = 1) ∧
      (fanEdges ((holdingAtExec tech st).reverse.take tech.kill)
          (List.range' st.count tech.add)).length = tech.kill * tech.add ∧
      (∀ e ∈ fanEdges ((holdingAtExec tech st).reverse.take tech.kill)
          (List.range' st.count tech.add), e.type = .vertical ∧ e.weight = 3/2) ∧
      (∀ u ∈ (holdingAtExec tech st).reverse.take tech.kill,
        ∀ a ∈ List.range' st.count tech.add, mkV u a ∈ st1.allEdges) := by
  refine ⟨_, hEdges (flagAtExec tech st) st.count tech.add,
    techStep_ok (lowerToken tok) tech st hk, ?_, rfl, hEdges_mem _ _ _, ?_, fanEdges_mem _ _, ?_⟩
  · rw [processTokens_tech tok rest st tech h1 h2, techStep_ok (lowerToken tok) tech st hk]
  · rw [fanEdges_length, List.length_take, List.length_reverse, List.length_range']
    rw [Nat.min_eq_left hk]
  · intro u hu a ha
    refine List.mem_append.mpr (Or.inr ?_)
    exact fanEdges_complete _ _ u hu a ha

/-- C4 (witness): the fan-out step `kfb` (kill 1, add 2) and the fan-in
step `k2tog` (kill 2, add 1), each executed on a state with enough
stitches on the holding needle. -/
theorem claim_C4_witness :
    (∃ (st1 : PState) (hPart : List Edge),
      techStep (lowerToken "kfb".data) ⟨"k", 1, 2, false⟩ ⟨[], [], [], [5], 7, false⟩ = .ok st1 ∧
      processTokens ["kfb".data] ⟨[], [], [], [5], 7, false⟩ = processTokens [] st1 ∧
      st1.allEdges = PState.allEdges ⟨[], [], [], [5], 7, false⟩ ++ hPart ++
        fanEdges ((holdingAtExec ⟨"k", 1, 2, false⟩ ⟨[], [], [], [5], 7, false⟩).reverse.take 1)
          (List.range' 7 2) ∧
      (∀ e ∈ hPart, e.type = .horizontal ∧ e.weight = 1) ∧
      (fanEdges ((holdingAtExec ⟨"k", 1, 2, false⟩ ⟨[], [], [], [5], 7, false⟩).reverse.take 1)
          (List.range' 7 2)).length = 1 * 2 ∧
      (∀ e ∈ fanEdges
          ((holdingAtExec ⟨"k", 1, 2, false⟩ ⟨[], [], [], [5], 7, false⟩).reverse.take 1)
          (List.range' 7 2), e.type = .vertical ∧ e.weight = 3/2) ∧
      (∀ u ∈ (holdingAtExec ⟨"k", 1, 2, false⟩ ⟨[], [], [], [5], 7, false⟩).reverse.take 1,
        ∀ a ∈ List.range' 7 2, mkV u a ∈ st1.allEdges)) ∧
    (∃ (st1 : PState) (hPart : List Edge),
      techStep (lowerToken "k2tog".data) ⟨"k", 2, 1, false⟩ ⟨[], [], [], [3, 4], 7, false⟩ =
        .ok st1 ∧
      processTokens ["k2tog".data] ⟨[], [], [], [3, 4], 7, false⟩ = processTokens [] st1 ∧
      st1.allEdges = PState.allEdges ⟨[], [], [], [3, 4], 7, false⟩ ++ hPart ++
        fanEdges
          ((holdingAtExec ⟨"k", 2, 1, false⟩ ⟨[], [], [], [3, 4], 7, false⟩).reverse.take 2)
          (List.range' 7 1) ∧
      (∀ e ∈ hPart, e.type = .horizontal ∧ e.weight = 1) ∧
      (fanEdges ((holdingAtExec ⟨"k", 2, 1, false⟩ ⟨[], [], [], [3, 4], 7, false⟩).reverse.take 2)
          (List.range' 7 1)).length = 2 * 1 ∧
      (∀ e ∈ fanEdges
          ((holdingAtExec ⟨"k", 2, 1, false⟩ ⟨[], [], [], [3, 4], 7, false⟩).reverse.take 2)
          (List.range' 7 1), e.type = .vertical ∧ e.weight = 3/2) ∧
      (∀ u ∈ (holdingAtExec ⟨"k", 2, 1, false⟩ ⟨[], [], [], [3, 4], 7, false⟩).reverse.take 2,
        ∀ a ∈ List.range' 7 1, mkV u a ∈ st1.allEdges)) :=
  ⟨claim_C4 "kfb".data [] ⟨[], [], [], [5], 7, false⟩ ⟨"k", 1, 2, false⟩
      (by decide) (by decide) (by decide),
   claim_C4 "k2tog".data [] ⟨[], [], [], [3, 4], 7, false⟩ ⟨"k", 2, 1, false⟩
      (by decide) (by decide) (by decide)⟩

/-! ### Structural invariants (dense ids, consecutive horizontal edges) -/

/-- Every `hEdges` edge joins consecutively created nodes. -/
theorem hEdges_target (flag : Bool) (c n : Nat) :
    ∀ e ∈ hEdges flag c n, e.target = e.source + 1 := by
  intro e he
  unfold hEdges at he
  split_ifs at he <;>
    (rcases List.mem_map.mp he with ⟨s, _, rfl⟩; rfl)

/-- `range c` extended by `range' c n`. -/
theorem range_append_range' (c n : Nat) :
    List.range c ++ List.range' c n = List.range (c + n) := by
  induction n with
  | zero => simp
  | succ n ih =>
    rw [show List.range' c (n + 1) = List.range' c n ++ [c + n] from by
        simpa using @List.range'_concat 1 c n,
      show c + (n + 1) = (c + n) + 1 from rfl, List.range_succ, ← ih]
    simp

/-- The initial state satisfies the structural invariants. -/
theorem good_init : GoodState initState := by
  constructor <;> simp [initState]

/-- Freshly created nodes carry exactly their ids. -/
theorem map_id_mkNodes (ty ch : String) (tech : Technique) (l : List Nat) :
    (l.map (fun i => (⟨i, ty, ch, tech⟩ : Node))).map Node.id = l := by
  induction l with
  | nil => rfl
  | cons a l ih => simpa using ih

/-- The node-creation loop preserves the structural invariants. -/
theorem good_addLoop (ty ch : String) (tech : Technique) (n : Nat) (st : PState)
    (added : List Nat) (hg : GoodState st) :
    GoodState (addLoop ty ch tech n st added).1 := by
  obtain ⟨hids, hedges⟩ := hg
  rw [addLoop_eq]
  constructor
  · show (st.allNodes ++ _).map Node.id = _
    rw [List.map_append, map_id_mkNodes, hids, range_append_range']
  · intro e he htype
    rcases List.mem_append.mp he with h1 | h2
    · exact hedges e h1 htype
    · exact hEdges_target _ _ _ e h2

/-- The `kill` loop preserves the structural invariants. -/
theorem good_killLoop (ty : String) (added : List Nat) :
    ∀ (k : Nat) (st st' : PState), GoodState st →
      killLoop ty added k st = .ok st' → GoodState st' := by
  intro k
  induction k with
  | zero =>
    intro st st' hg h
    rw [killLoop] at h
    cases h
    exact hg
  | succ k ih =>
    intro st st' hg h
    rw [killLoop] at h
    split at h
    · refine ih _ _ ?_ h
      refine ⟨hg.1, ?_⟩
      intro e he htype
      rcases List.mem_append.mp he with h1 | h2
      · exact hg.2 e h1 htype
      · rcases List.mem_map.mp h2 with ⟨a, _, rfl⟩
        simp at htype
    · cases h

/-- A technique execution preserves the structural invariants. -/
theorem good_techStep (stitch : List Char) (tech : Technique) (st st' : PState)
    (hg : GoodState st) (h : techStep stitch tech st = .ok st') : GoodState st' := by
  unfold techStep runKill at h
  refine good_killLoop _ _ _ _ _ ?_ h
  refine good_addLoop _ _ _ _ _ _ ?_
  split
  · exact ⟨hg.1, hg.2⟩
  · exact hg

/-- The cast-on loop preserves the structural invariants. -/
theorem good_castOnLoop (n : Nat) (st : PState) (hg : GoodState st) :
    GoodState (castOnLoop n st) :=
  good_addLoop _ _ _ _ _ _ hg

/-- Remaining cast-on reduction: bare `co` whose neighbour does not parse. -/
theorem processTokens_co_skip (tok next : List Char) (rest2 : List (List Char)) (st : PState)
    (hlc : lowerToken tok = ['c', 'o'])
    (hnum : jsParseInt next = none) :
    processTokens (tok :: next :: rest2) st =
      processTokens (next :: rest2) (castOnLoop 1 st) := by
  rw [processTokens.eq_def]
  dsimp only
  rw [if_pos (Or.inl hlc), if_pos hlc, hnum]

/-- Remaining cast-on reduction: bare `co` as the last token. -/
theorem processTokens_co_last (tok : List Char) (st : PState)
    (hlc : lowerToken tok = ['c', 'o']) :
    processTokens [tok] st = processTokens [] (castOnLoop 1 st) := by
  rw [processTokens.eq_def]
  dsimp only
  rw [if_pos (Or.inl hlc), if_pos hlc]

/-- Remaining cast-on reduction: fused `co<digits>`. -/
theorem processTokens_co_fused (tok : List Char) (rest : List (List Char)) (st : PState)
    (h1 : startsWithCo (lowerToken tok) = true)
    (h2 : lowerToken tok ≠ ['c', 'o']) :
    processTokens (tok :: rest) st =
      match jsParseInt ((lowerToken tok).drop 2) with
      | some num => processTokens rest (castOnLoop num.toNat st)
      | none => processTokens rest (castOnLoop 1 st) := by
  rw [processTokens.eq_def]
  dsimp only
  rw [if_pos (Or.inr h1), if_neg h2]

/-- Generic preservation through the token loop: any state predicate closed
under the cast-on loop and under successful technique execution is an
invariant of the token loop. -/
theorem preserve_processTokens (P : PState → Prop)
    (hcast : ∀ (n : Nat) (st : PState), P st → P (castOnLoop n st))
    (htech : ∀ (stitch : List Char) (tech : Technique) (st st' : PState),
        P st → techStep stitch tech st = .ok st' → P st') :
    ∀ (fuel : Nat) (toks : List (List Char)), toks.length ≤ fuel →
      ∀ st, P st → ∀ st', processTokens toks st = .ok st' → P st' := by
  intro fuel
  induction fuel with
  | zero =>
    intro toks hlen st hp st' h
    have htoks : toks = [] := List.length_eq_zero.mp (by omega)
    rw [htoks, processTokens_nil] at h
    cases h
    exact hp
  | succ fuel ih =>
    intro toks hlen st hp st' h
    cases toks with
    | nil =>
      rw [processTokens_nil] at h
      cases h
      exact hp
    | cons tok rest =>
      by_cases hlc : lowerToken tok = ['c', 'o']
      · cases rest with
        | nil =>
          rw [processTokens_co_last tok st hlc, processTokens_nil] at h
          cases h
          exact hcast _ _ hp
        | cons next rest2 =>
          cases hnum : jsParseInt next with
          | some num =>
            rw [processTokens_co_consume tok next rest2 st num hlc hnum] at h
            exact ih rest2 (by simp at hlen; omega) _ (hcast _ _ hp) st' h
          | none =>
            rw [processTokens_co_skip tok next rest2 st hlc hnum] at h
            exact ih (next :: rest2) (by simp at hlen ⊢; omega) _ (hcast _ _ hp) st' h
      · by_cases hsw : startsWithCo (lowerToken tok) = true
        · rw [processTokens_co_fused tok rest st hsw hlc] at h
          cases hnum : jsParseInt ((lowerToken tok).drop 2) with
          | some num =>
            rw [hnum] at h
            exact ih rest (by simp at hlen; omega) _ (hcast _ _ hp) st' h
          | none =>
            rw [hnum] at h
            exact ih rest (by simp at hlen; omega) _ (hcast _ _ hp) st' h
        · have hsw' : startsWithCo (lowerToken tok) = false := by simpa using hsw
          cases htec : findTech (lowerToken tok) with
          | some tech =>
            rw [processTokens_tech tok rest st tech hsw' htec] at h
            cases hstep : techStep (lowerToken tok) tech st with
            | ok st1 =>
              rw [hstep] at h
              exact ih rest (by simp at hlen; omega) _
                (htech _ _ _ _ hp hstep) st' h
            | error e =>
              rw [hstep] at h
              cases h
          | none =>
            by_cases hcab : (lowerToken tok).head? = some 'c' ∧
                (lowerToken tok).getLast? = some 'c'
            · rw [processTokens_cable tok rest st hsw' htec hcab] at h
              exact ih rest (by simp at hlen; omega) _ hp st' h
            · rw [processTokens_unknown tok rest st hsw' htec hcab] at h
              cases h

/-- Generic preservation through the line loop. -/
theorem preserve_processLines (P : PState → Prop)
    (htoks : ∀ (toks : List (List Char)) (st : PState), P st →
        ∀ st', processTokens toks st = .ok st' → P st')
    (heol : ∀ st, P st → P (endOfLine st)) :
    ∀ (lines : List (List Char)) (st : PState), P st →
      ∀ st', processLines lines st = .ok st' → P st' := by
  intro lines
  induction lines with
  | nil =>
    intro st hp st' h
    rw [processLines_nil] at h
    cases h
    exact hp
  | cons line rest ih =>
    intro st hp st' h
    cases hruns : splitRuns line with
    | nil =>
      rw [processLines_skip line rest st hruns] at h
      exact ih st hp st' h
    | cons t ts =>
      rw [processLines_run line rest st t ts hruns] at h
      cases hrun : processTokens (t :: ts) st with
      | ok st1 =>
        rw [hrun] at h
        exact ih _ (heol _ (htoks _ _ hp _ hrun)) st' h
      | error e =>
        rw [hrun] at h
        cases h

/-- The end-of-line rule preserves the structural invariants. -/
theorem good_endOfLine (st : PState) (hg : GoodState st) : GoodState (endOfLine st) := by
  unfold endOfLine
  split
  · exact hg
  · exact ⟨hg.1, hg.2⟩

/-- The line loop preserves the structural invariants. -/
theorem good_processLines (lines : List (List Char)) (st : PState) (hg : GoodState st)
    (st' : PState) (h : processLines lines st = .ok st') : GoodState st' :=
  preserve_processLines GoodState
    (fun toks st0 hp st1 h1 =>
      preserve_processTokens GoodState good_castOnLoop good_techStep
        toks.length toks le_rfl st0 hp st1 h1)
    good_endOfLine lines st hg st' h

/-- One node creation preserves the suppression invariant: if the flag was
armed the new node gets no incoming horizontal edge, and afterwards every
new horizontal edge targets an id beyond the boundary id. -/
theorem supp_addStitchNode (c0 : Nat) (base : List Edge) (ty ch : String) (tech : Technique)
    (st : PState) (h : Suppressed c0 base st) :
    Suppressed c0 base (addStitchNode ty ch tech st) := by
  obtain ⟨hphase, hmem⟩ := h
  rw [addStitchNode_eq]
  constructor
  · right
    show c0 < st.count + 1
    rcases hphase with ⟨hc, _⟩ | hc <;> omega
  · intro e he htype htgt
    have he' : e ∈ st.allEdges ++ hEdges st.edgeFlag st.count 1 := he
    rcases List.mem_append.mp he' with h1 | h2
    · exact hmem e h1 htype htgt
    · exfalso
      rcases hphase with ⟨hc, hf⟩ | hc
      · rw [hf, hEdges_on] at h2
        simp at h2
      · unfold hEdges at h2
        split_ifs at h2 with hcond
        · rw [List.range'_one] at h2
          simp only [List.map_cons, List.map_nil, List.mem_singleton] at h2
          rw [h2] at htgt
          unfold mkH at htgt
          simp only at htgt
          omega
        · simp at h2

/-- The node-creation loop preserves the suppression invariant. -/
theorem supp_addLoop (c0 : Nat) (base : List Edge) (ty ch : String) (tech : Technique) :
    ∀ (n : Nat) (st : PState) (added : List Nat), Suppressed c0 base st →
      Suppressed c0 base (addLoop ty ch tech n st added).1 := by
  intro n
  induction n with
  | zero =>
    intro st added h
    rw [addLoop]
    exact h
  | succ n ih =>
    intro st added h
    rw [addLoop]
    exact ih _ _ (supp_addStitchNode c0 base ty ch tech st h)

/-- The `kill` loop preserves the suppression invariant. -/
theorem supp_killLoop (c0 : Nat) (base : List Edge) (ty : String) (added : List Nat) :
    ∀ (k : Nat) (st st' : PState), Suppressed c0 base st →
      killLoop ty added k st = .ok st' → Suppressed c0 base st' := by
  intro k
  induction k with
  | zero =>
    intro st st' h hk
    rw [killLoop] at hk
    cases hk
    exact h
  | succ k ih =>
    intro st st' h hk
    rw [killLoop] at hk
    split at hk
    · refine ih _ _ ?_ hk
      obtain ⟨hphase, hmem⟩ := h
      refine ⟨?_, ?_⟩
      · rcases hphase with ⟨hc, hf⟩ | hc
        · exact Or.inl ⟨hc, hf⟩
        · exact Or.inr hc
      · intro e he htype htgt
        rcases List.mem_append.mp he with h1 | h2
        · exact hmem e h1 htype htgt
        · rcases List.mem_map.mp h2 with ⟨a, _, rfl⟩
          simp at htype
    · cases hk

/-- A technique execution preserves the suppression invariant. -/
theorem supp_techStep (c0 : Nat) (base : List Edge) (stitch : List Char) (tech : Technique)
    (st st' : PState) (h : Suppressed c0 base st)
    (hk : techStep stitch tech st = .ok st') : Suppressed c0 base st' := by
  unfold techStep runKill at hk
  refine supp_killLoop c0 base _ _ _ _ _ ?_ hk
  refine supp_addLoop c0 base _ _ _ _ _ _ ?_
  split
  · obtain ⟨hphase, hmem⟩ := h
    refine ⟨?_, hmem⟩
    rcases hphase with ⟨hc, _⟩ | hc
    · exact Or.inl ⟨hc, rfl⟩
    · exact Or.inr hc
  · exact h

/-- The cast-on loop preserves the suppression invariant. -/
theorem supp_castOnLoop (c0 : Nat) (base : List Edge) (n : Nat) (st : PState)
    (h : Suppressed c0 base st) : Suppressed c0 base (castOnLoop n st) :=
  supp_addLoop c0 base _ _ _ _ _ _ h

/-- The end-of-line rule preserves the suppression invariant. -/
theorem supp_endOfLine (c0 : Nat) (base : List Edge) (st : PState)
    (h : Suppressed c0 base st) : Suppressed c0 base (endOfLine st) := by
  unfold endOfLine
  split
  · exact h
  · obtain ⟨hphase, hmem⟩ := h
    refine ⟨?_, hmem⟩
    rcases hphase with ⟨hc, _⟩ | hc
    · exact Or.inl ⟨hc, rfl⟩
    · exact Or.inr hc

/-- C5: in every successful compile the node ids are exactly the dense
integers `0..N-1` in creation order, and every horizontal edge joins
consecutively created nodes (`target = source + 1`); moreover, from any
state whose suppression flag is armed — a needle swap or a row boundary —
the line loop never adds a horizontal edge targeting the next id to be
created, so no horizontal edge ever crosses such a boundary. -/
theorem claim_C5 :
    (∀ p : String, (parsePattern p).success = true →
      (parsePattern p).nodes.map Node.id = List.range (parsePattern p).nodes.length ∧
      (∀ e ∈ (parsePattern p).edges, e.type = .horizontal → e.target = e.source + 1)) ∧
    (∀ (lines : List (List Char)) (st st' : PState),
      st.edgeFlag = true →
      processLines lines st = .ok st' →
      ∀ e ∈ st'.allEdges, e.type = .horizontal → e.target = st.count → e ∈ st.allEdges) := by
  constructor
  · intro p hsucc
    unfold parsePattern at *
    cases hps : parseState p with
    | error e => rw [hps] at hsucc; simp at hsucc
    | ok st =>
      have hg := good_processLines _ _ good_init _ hps
      have hlen : st.allNodes.length = st.count := by
        have := congrArg List.length hg.1
        simpa using this
      refine ⟨?_, hg.2⟩
      show st.allNodes.map Node.id = List.range st.allNodes.length
      rw [hg.1, hlen]
  · intro lines st st' hflag hrun
    have hsupp := preserve_processLines (Suppressed st.count st.allEdges)
      (fun toks st0 hp st1 h1 =>
        preserve_processTokens (Suppressed st.count st.allEdges)
          (supp_castOnLoop st.count st.allEdges)
          (supp_techStep st.count st.allEdges)
          toks.length toks le_rfl st0 hp st1 h1)
      (supp_endOfLine st.count st.allEdges)
      lines st ⟨Or.inl ⟨rfl, hflag⟩, fun e he _ _ => he⟩ st' hrun
    exact hsupp.2

/-- C5 (witness): the two-row pattern `co 2 / k k` compiles successfully
with dense ids and consecutive horizontal edges, and processing the line
`k k` from the armed boundary state after the cast-on row adds no
horizontal edge targeting the boundary id 2. -/
theorem claim_C5_witness :
    ((parsePattern "co 2\nk k").nodes.map Node.id =
        List.range (parsePattern "co 2\nk k").nodes.length ∧
      (∀ e ∈ (parsePattern "co 2\nk k").edges, e.type = .horizontal →
        e.target = e.source + 1)) ∧
    (∀ e ∈ (⟨[mkCoNode 0, mkCoNode 1, mkKNode 2, mkKNode 3],
        [mkH 0, mkV 1 2, mkH 2, mkV 0 3], [], [2, 3], 4, true⟩ : PState).allEdges,
      e.type = .horizontal →
      e.target = (⟨[mkCoNode 0, mkCoNode 1], [mkH 0], [], [0, 1], 2, true⟩ : PState).count →
      e ∈ (⟨[mkCoNode 0, mkCoNode 1], [mkH 0], [], [0, 1], 2, true⟩ : PState).allEdges) :=
  ⟨claim_C5.1 "co 2\nk k" rfl,
   claim_C5.2 ["k k".data]
     ⟨[mkCoNode 0, mkCoNode 1], [mkH 0], [], [0, 1], 2, true⟩
     ⟨[mkCoNode 0, mkCoNode 1, mkKNode 2, mkKNode 3],
       [mkH 0, mkV 1 2, mkH 2, mkV 0 3], [], [2, 3], 4, true⟩
     rfl rfl⟩

/-! ### Decimal numerals round-trip through `parseInt` -/

/-- Whitespace characters are not digits. -/
theorem ws_not_digit (c : Char) (h : jsIsWs c = true) : c.isDigit = false := by
  simp only [jsIsWs, Bool.or_eq_true, decide_eq_true_eq] at h
  rcases h with ((((h | h) | h) | h) | h) | h <;> subst h <;> decide

/-- Digits are not whitespace. -/
theorem digit_not_ws (c : Char) (h : c.isDigit = true) : jsIsWs c = false := by
  cases hws : jsIsWs c with
  | false => rfl
  | true => rw [ws_not_digit c hws] at h; cases h

/-- Digits are not the newline separator. -/
theorem digit_ne_nl (c : Char) (h : c.isDigit = true) : c ≠ '\n' := by
  intro heq
  rw [heq] at h
  cases h

/-- Every character produced by `natDigitChar` is a digit. -/
theorem natDigitChar_digit (d : Nat) : (natDigitChar d).isDigit = true := by
  unfold natDigitChar
  split <;> decide

/-- `natDigits` never produces the empty list. -/
theorem natDigits_ne_nil (n : Nat) : natDigits n ≠ [] := by
  rw [natDigits]
  split_ifs <;> simp

/-- Every character of a decimal numeral is a digit. -/
theorem natDigits_digits (n : Nat) : ∀ c ∈ natDigits n, c.isDigit = true := by
  induction n using Nat.strong_induction_on with
  | _ n ih =>
    intro c hc
    rw [natDigits] at hc
    split_ifs at hc with h
    · rw [List.mem_singleton] at hc
      rw [hc]
      exact natDigitChar_digit n
    · rcases List.mem_append.mp hc with h1 | h2
      · exact ih (n / 10) (Nat.div_lt_self (by omega) (by omega)) c h1
      · rw [List.mem_singleton] at h2
        rw [h2]
        exact natDigitChar_digit (n % 10)

/-- Appending one digit multiplies the value by ten and adds it. -/
theorem digitsVal_append_digit (l : List Char) (c : Char) :
    digitsVal (l ++ [c]) = 10 * digitsVal l + (c.toNat - 48) := by
  unfold digitsVal
  rw [List.foldl_append]
  rfl

/-- The numeric value of a single digit character below ten. -/
theorem natDigitChar_toNat (d : Nat) (h : d < 10) : (natDigitChar d).toNat - 48 = d := by
  interval_cases d <;> decide

/-- The decimal numeral of `n` evaluates back to `n`. -/
theorem digitsVal_natDigits (n : Nat) : digitsVal (natDigits n) = n := by
  induction n using Nat.strong_induction_on with
  | _ n ih =>
    rw [natDigits]
    split_ifs with h
    · have h1 : digitsVal [natDigitChar n] = (natDigitChar n).toNat - 48 := by
        simp [digitsVal]
      rw [h1, natDigitChar_toNat n h]
    · rw [digitsVal_append_digit,
        ih (n / 10) (Nat.div_lt_self (by omega) (by omega)),
        natDigitChar_toNat (n % 10) (Nat.mod_lt n (by omega))]
      omega

/-- `takeWhile` keeps a list all of whose elements satisfy the predicate. -/
theorem takeWhile_all (p : Char → Bool) (l : List Char) (h : ∀ c ∈ l, p c = true) :
    l.takeWhile p = l := by
  induction l with
  | nil => rfl
  | cons c cs ih =>
    rw [List.takeWhile_cons, if_pos (h c (by simp))]
    rw [ih (fun x hx => h x (by simp [hx]))]

/-- The leading-digit-run value of an all-digit list is its full value. -/
theorem jsDigitsVal_all (l : List Char) (hne : l ≠ []) (hd : ∀ c ∈ l, c.isDigit = true) :
    jsDigitsVal l = some (digitsVal l) := by
  unfold jsDigitsVal
  rw [takeWhile_all _ _ hd]
  cases l with
  | nil => exact absurd rfl hne
  | cons c cs => rfl

/-- `parseInt` on a non-empty all-digit list returns its value. -/
theorem jsParseInt_digits (l : List Char) (hne : l ≠ []) (hd : ∀ c ∈ l, c.isDigit = true) :
    jsParseInt l = some (Int.ofNat (digitsVal l)) := by
  unfold jsParseInt
  rw [show trimLeft l = l from dropWhile_no _ _ (fun c hc => digit_not_ws c (hd c hc))]
  split
  · exact absurd (hd '+' (by simp)) (by decide)
  · exact absurd (hd '-' (by simp)) (by decide)
  · rw [jsDigitsVal_all l hne hd]
    rfl

/-- `parseInt` inverts the decimal numeral of `n`. -/
theorem jsParseInt_natDigits (n : Nat) : jsParseInt (natDigits n) = some (Int.ofNat n) := by
  rw [jsParseInt_digits (natDigits n) (natDigits_ne_nil n) (natDigits_digits n),
    digitsVal_natDigits]

/-! ### Tokenization of the `co N` / `k … k` pattern family -/

/-- Leading whitespace is skipped by the run tokenizer. -/
theorem splitRuns_ws_cons (w : Char) (l : List Char) (h : jsIsWs w = true) :
    splitRuns (w :: l) = splitRuns l := by
  cases l with
  | nil => simp [splitRuns, h]
  | cons d ds =>
    rw [splitRuns, if_pos h]

/-- A non-whitespace character before whitespace closes a one-character
token. -/
theorem splitRuns_cons_cons_ws (c d : Char) (cs : List Char)
    (hc : jsIsWs c = false) (hd : jsIsWs d = true) :
    splitRuns (c :: d :: cs) = [c] :: splitRuns cs := by
  rw [splitRuns, if_neg (by simp [hc]), if_pos hd, splitRuns_ws_cons d cs hd]

/-- A non-whitespace character before another extends the first token of the
rest. -/
theorem splitRuns_cons_run (c d : Char) (cs : List Char) (t : List Char)
    (ts : List (List Char)) (hc : jsIsWs c = false) (hd : jsIsWs d = false)
    (h : splitRuns (d :: cs) = t :: ts) :
    splitRuns (c :: d :: cs) = (c :: t) :: ts := by
  rw [splitRuns, if_neg (by simp [hc]), if_neg (by simp [hd]), h]

/-- The knit row of `N` columns tokenizes to `N` tokens `k`. -/
theorem kLine_tokens (N : Nat) : splitRuns (kLineChars N) = List.replicate N ['k'] := by
  induction N using Nat.strong_induction_on with
  | _ N ih =>
    match N with
    | 0 => rfl
    | 1 => rfl
    | n + 2 =>
      rw [kLineChars, splitRuns_cons_cons_ws 'k' ' ' (kLineChars (n + 1)) (by decide) (by decide),
        ih (n + 1) (by omega)]
      rfl

/-- The knit row contains only `k` and space characters. -/
theorem kLine_mem (N : Nat) : ∀ c ∈ kLineChars N, c = 'k' ∨ c = ' ' := by
  induction N using Nat.strong_induction_on with
  | _ N ih =>
    match N with
    | 0 => intro c hc; cases hc
    | 1 =>
      intro c hc
      rw [kLineChars, List.mem_singleton] at hc
      exact Or.inl hc
    | n + 2 =>
      intro c hc
      rw [kLineChars] at hc
      rcases hc with _ | ⟨_, _ | ⟨_, hc⟩⟩
      · exact Or.inl rfl
      · exact Or.inr rfl
      · exact ih (n + 1) (by omega) c hc

/-- A non-empty knit row. -/
theorem kLine_ne_nil (N : Nat) (h : 1 ≤ N) : kLineChars N ≠ [] := by
  match N with
  | 1 => simp [kLineChars]
  | n + 2 => rw [kLineChars]; simp

/-- The last character of a non-empty knit row is `k`. -/
theorem kLine_last (N : Nat) (h : 1 ≤ N) : (kLineChars N).getLast? = some 'k' := by
  induction N using Nat.strong_induction_on with
  | _ N ih =>
    match N with
    | 1 => rfl
    | n + 2 =>
      rw [kLineChars]
      rcases List.eq_nil_or_concat (kLineChars (n + 1)) with hnil | ⟨L, d, hL⟩
      · exact absurd hnil (kLine_ne_nil (n + 1) (by omega))
      · rw [List.concat_eq_append] at hL
        rw [hL, show 'k' :: ' ' :: (L ++ [d]) = ('k' :: ' ' :: L) ++ [d] from rfl,
          List.getLast?_concat, ← List.getLast?_concat L, ← hL]
        exact ih (n + 1) (by omega) (by omega)

/-- The last element of an append with a non-empty right part. -/
theorem getLast?_append_right (l₁ l₂ : List Char) (h : l₂ ≠ []) :
    (l₁ ++ l₂).getLast? = l₂.getLast? := by
  rcases List.eq_nil_or_concat l₂ with rfl | ⟨L, d, hL⟩
  · exact absurd rfl h
  · rw [List.concat_eq_append] at hL
    rw [hL, ← List.append_assoc, List.getLast?_concat, List.getLast?_concat]

/-- Splitting distributes over an occurrence of the separator. -/
theorem splitOnChar_ne_nil (sep : Char) (l : List Char) : splitOnChar sep l ≠ [] := by
  cases l with
  | nil => simp [splitOnChar]
  | cons c cs =>
    rw [splitOnChar]
    split_ifs
    · simp
    · split <;> simp

/-- Splitting an append at an explicit separator splits both parts. -/
theorem splitOnChar_append (sep : Char) (a b : List Char) :
    splitOnChar sep (a ++ sep :: b) = splitOnChar sep a ++ splitOnChar sep b := by
  induction a with
  | nil =>
    rw [List.nil_append,
      show splitOnChar sep (sep :: b) = [] :: splitOnChar sep b from by
        rw [splitOnChar.eq_def]
        simp]
    rfl
  | cons c cs ih =>
    by_cases hc : c = sep
    · subst hc
      rw [List.cons_append, splitOnChar, if_pos rfl, ih,
        show splitOnChar c (c :: cs) = [] :: splitOnChar c cs from by
          rw [splitOnChar, if_pos rfl]]
      rfl
    · obtain ⟨t, ts, hts⟩ : ∃ t ts, splitOnChar sep cs = t :: ts := by
        cases h : splitOnChar sep cs with
        | nil => exact absurd h (splitOnChar_ne_nil sep cs)
        | cons t ts => exact ⟨t, ts, rfl⟩
      rw [List.cons_append, splitOnChar, if_neg hc, ih, hts,
        show splitOnChar sep (c :: cs) = (c :: t) :: ts from by
          rw [splitOnChar, if_neg hc, hts]]
      rfl

/-- The line decomposition of the `co N` pattern followed by `R` knit
rows. -/
theorem coKnit_lines (N : Nat) : ∀ R : Nat,
    splitOnChar '\n' (coLineChars N ++ (List.replicate R ('\n' :: kLineChars N)).flatten) =
      coLineChars N :: List.replicate R (kLineChars N) := by
  have hco : ∀ c ∈ coLineChars N, c ≠ '\n' := by
    intro c hc
    unfold coLineChars at hc
    rcases hc with _ | ⟨_, _ | ⟨_, _ | ⟨_, hc⟩⟩⟩
    · decide
    · decide
    · decide
    · exact digit_ne_nl c (natDigits_digits N c hc)
  have hkl : ∀ c ∈ kLineChars N, c ≠ '\n' := by
    intro c hc
    rcases kLine_mem N c hc with h | h <;> (subst h; decide)
  intro R
  induction R with
  | zero =>
    rw [show (List.replicate 0 ('\n' :: kLineChars N)).flatten = [] from rfl,
      List.append_nil, splitOnChar_no_sep '\n' (coLineChars N) hco]
    rfl
  | succ R ih =>
    rw [List.replicate_succ', List.flatten_append,
      show (([('\n' :: kLineChars N)]).flatten : List Char) = '\n' :: kLineChars N from by simp,
      ← List.append_assoc, splitOnChar_append, ih,
      splitOnChar_no_sep '\n' (kLineChars N) hkl, List.replicate_succ']
    rfl

/-- Trimming a list with non-whitespace first and last characters is the
identity. -/
theorem jsTrimList_eq_self (l : List Char)
    (h1 : ∀ c, l.head? = some c → jsIsWs c = false)
    (h2 : ∀ c, l.getLast? = some c → jsIsWs c = false) : jsTrimList l = l := by
  unfold jsTrimList
  have ht : trimLeft l = l := by
    cases l with
    | nil => rfl
    | cons c cs =>
      unfold trimLeft
      rw [List.dropWhile_cons, if_neg (by simp [h1 c rfl])]
  rw [ht]
  rcases List.eq_nil_or_concat l with rfl | ⟨L, d, hL⟩
  · rfl
  · rw [List.concat_eq_append] at hL
    rw [hL, List.reverse_append, List.reverse_singleton, List.singleton_append,
      List.dropWhile_cons,
      if_neg (by simp [h2 d (by rw [hL]; exact List.getLast?_concat L)])]
    simp

/-- The pattern `co N` followed by `R` knit rows is already trimmed. -/
theorem coKnit_trim (N R : Nat) (hN : 1 ≤ N) :
    jsTrimList (coLineChars N ++ (List.replicate R ('\n' :: kLineChars N)).flatten) =
      coLineChars N ++ (List.replicate R ('\n' :: kLineChars N)).flatten := by
  apply jsTrimList_eq_self
  · intro c hc
    have hhd : (coLineChars N ++
        (List.replicate R ('\n' :: kLineChars N)).flatten).head? = some 'c' := rfl
    rw [hhd] at hc
    cases hc
    decide
  · intro c hc
    cases R with
    | zero =>
      rw [show ((List.replicate 0 ('\n' :: kLineChars N)).flatten : List Char) = [] from rfl,
        List.append_nil] at hc
      rcases List.eq_nil_or_concat (natDigits N) with hnil | ⟨D, d, hD⟩
      · exact absurd hnil (natDigits_ne_nil N)
      · rw [List.concat_eq_append] at hD
        rw [show coLineChars N = ('c' :: 'o' :: ' ' :: D) ++ [d] from by
            rw [coLineChars, hD]; rfl,
          List.getLast?_concat] at hc
        cases hc
        exact digit_not_ws c (natDigits_digits N c (by rw [hD]; simp))
    | succ R' =>
      rw [List.replicate_succ', List.flatten_append,
        show (([('\n' :: kLineChars N)]).flatten : List Char) = '\n' :: kLineChars N from by simp,
        ← List.append_assoc,
        getLast?_append_right _ ('\n' :: kLineChars N) (by simp),
        show ('\n' :: kLineChars N) = ['\n'] ++ kLineChars N from rfl,
        getLast?_append_right _ (kLineChars N) (kLine_ne_nil N hN),
        kLine_last N hN] at hc
      cases hc
      decide

/-- The cast-on line tokenizes to the token `co` followed by the numeral. -/
theorem coLine_tokens (N : Nat) :
    splitRuns (coLineChars N) = [['c', 'o'], natDigits N] := by
  have hds : splitRuns (natDigits N) = [natDigits N] :=
    splitRuns_single _ (natDigits_ne_nil N)
      (fun c hc => digit_not_ws c (natDigits_digits N c hc))
  have h1 : splitRuns ('o' :: ' ' :: natDigits N) = ['o'] :: [natDigits N] := by
    rw [splitRuns_cons_cons_ws 'o' ' ' (natDigits N) (by decide) (by decide), hds]
  rw [show coLineChars N = 'c' :: 'o' :: ' ' :: natDigits N from rfl,
    splitRuns_cons_run 'c' 'o' (' ' :: natDigits N) ['o'] [natDigits N]
      (by decide) (by decide) h1]

/-! ### Execution of the `co N` / knit-row pattern family -/

/-- Extending a `range'` by its next element. -/
theorem range'_snoc (s n : Nat) : List.range' s n ++ [s + n] = List.range' s (n + 1) := by
  simpa using (@List.range'_concat 1 s n).symm

/-- A prefix of a `range'` is a shorter `range'`. -/
theorem range'_take (s n m : Nat) (h : m ≤ n) :
    (List.range' s n).take m = List.range' s m := by
  induction m generalizing s n with
  | zero => simp
  | succ m ih =>
    cases n with
    | zero => omega
    | succ n =>
      rw [show List.range' s (n + 1) = s :: List.range' (s + 1) n from List.range'_succ s n 1,
        List.take_succ_cons, ih (s + 1) n (by omega),
        show List.range' s (m + 1) = s :: List.range' (s + 1) m from List.range'_succ s m 1]

/-- The last element of a non-empty `range'`, as a reversed-prefix. -/
theorem range'_reverse_take_one (s n : Nat) (h : 1 ≤ n) :
    (List.range' s n).reverse.take 1 = [s + (n - 1)] := by
  obtain ⟨m, rfl⟩ : ∃ m, n = m + 1 := ⟨n - 1, by omega⟩
  rw [show List.range' s (m + 1) = List.range' s m ++ [s + m] from (range'_snoc s m).symm,
    List.reverse_append, List.reverse_singleton, List.singleton_append, List.take_succ_cons,
    List.take_zero]
  simp

/-- Joining two adjacent `range'` blocks. -/
theorem range'_join (s a b t : Nat) (ht : t = s + a) :
    List.range' s a ++ List.range' t b = List.range' s (a + b) := by
  subst ht
  induction b with
  | zero => simp
  | succ b ih =>
    rw [show List.range' (s + a) (b + 1) = List.range' (s + a) b ++ [s + a + b] from
        (range'_snoc (s + a) b).symm,
      ← List.append_assoc, ih, show s + a + b = s + (a + b) from by omega, range'_snoc]
    congr 1

/-- At the start of a knit row the mid-row state is the row-boundary
state. -/
theorem midState_zero (N r : Nat) : midState N r 0 = coKnitState N r := by
  simp [midState, coKnitState]

/-- One knit token advances the mid-row state by one stitch. -/
theorem midStep (N r j : Nat) (hj : j < N) :
    techStep (lowerToken ['k']) kTech (midState N r j) = .ok (midState N r (j + 1)) := by
  have hsm : (r + 1) * N = r * N + N := Nat.succ_mul r N
  have hk : kTech.kill ≤ (holdingAtExec kTech (midState N r j)).length := by
    simp [kTech, holdingAtExec, midState]
    omega
  rw [techStep_ok (lowerToken ['k']) kTech (midState N r j) hk]
  congr 1
  have hfun : (fun i => (⟨i, String.mk (lowerToken ['k']), kTech.character, kTech⟩ : Node)) =
      mkKNode := by
    funext i
    rfl
  refine PState.ext ?_ ?_ ?_ ?_ ?_ ?_
  · dsimp only [midState]
    rw [hfun, show kTech.add = 1 from rfl, List.append_assoc, ← List.map_append,
      List.range'_one, range'_snoc]
  · dsimp only [flagAtExec, holdingAtExec, midState]
    rw [show kTech.cursor_dir = false from rfl, show kTech.add = 1 from rfl,
      show kTech.kill = 1 from rfl]
    simp only [Bool.false_eq_true, if_false]
    rw [List.range_succ, List.flatMap_append]
    simp only [List.flatMap_cons, List.flatMap_nil, List.append_nil]
    rw [List.append_assoc, List.append_assoc]
    congr 1
    congr 1
    rw [range'_reverse_take_one (r * N) (N - j) (by omega), List.range'_one,
      show r * N + (N - j - 1) = (r + 1) * N - 1 - j from by rw [hsm]; omega]
    unfold rowPiece
    by_cases hj0 : j = 0
    · subst hj0
      rw [if_pos rfl, if_pos rfl, hEdges_on]
      rfl
    · rw [if_neg hj0, if_neg hj0, hEdges_off _ 1 (by omega), List.range'_one]
      rfl
  · dsimp only [workingAtExec, midState]
    rw [show kTech.cursor_dir = false from rfl, show kTech.add = 1 from rfl]
    simp only [Bool.false_eq_true, if_false]
    rw [List.range'_one, range'_snoc]
  · dsimp only [holdingAtExec, midState]
    rw [show kTech.cursor_dir = false from rfl, show kTech.kill = 1 from rfl]
    simp only [Bool.false_eq_true, if_false]
    rw [List.length_range', range'_take (r * N) (N - j) (N - j - 1) (by omega)]
    congr 1
  · dsimp only [midState]
    rw [show kTech.add = 1 from rfl]
    omega
  · dsimp only [midState]
    rw [show kTech.add = 1 from rfl]
    simp

/-- Running the remaining knit tokens of a row to its end. -/
theorem knitRowAux (N r : Nat) : ∀ (d j : Nat), j + d = N →
    processTokens (List.replicate d ['k']) (midState N r j) = .ok (midState N r N) := by
  intro d
  induction d with
  | zero =>
    intro j hj
    have hjN : j = N := by omega
    subst hjN
    exact processTokens_nil _
  | succ d ih =>
    intro j hj
    rw [show List.replicate (d + 1) ['k'] = ['k'] :: List.replicate d ['k'] from rfl,
      processTokens_tech ['k'] (List.replicate d ['k']) (midState N r j) kTech
        (by decide) (by decide),
      midStep N r j (by omega)]
    exact ih (j + 1) (by omega)

/-- A full knit row, executed from the row-boundary state. -/
theorem processRow (N r : Nat) :
    processTokens (List.replicate N ['k']) (coKnitState N r) = .ok (midState N r N) := by
  rw [← midState_zero N r]
  exact knitRowAux N r N 0 (by omega)

/-- The end-of-line rule turns the completed row into the next row-boundary
state. -/
theorem midState_eol (N r : Nat) (hN : 1 ≤ N) :
    endOfLine (midState N r N) = coKnitState N (r + 1) := by
  have hsm : (r + 1) * N = r * N + N := Nat.succ_mul r N
  unfold endOfLine
  rw [if_neg (by
    dsimp only [midState]
    simp only [ne_eq, List.range'_eq_nil]
    omega)]
  refine PState.ext ?_ ?_ rfl rfl ?_ rfl
  · dsimp only [midState, coKnitState]
    unfold coKnitNodes
    rw [List.append_assoc, ← List.map_append]
    congr 2
    conv_rhs => rw [hsm]
    exact range'_join N (r * N) N ((r + 1) * N) (by omega)
  · dsimp only [midState, coKnitState]
    unfold coKnitEdges
    rw [List.append_assoc]
    congr 1
    rw [show (List.range N).flatMap (rowPiece N (r + 1)) = knitRowEdges N (r + 1) from rfl,
      show List.range' 1 (r + 1) = List.range' 1 r ++ [1 + r] from (range'_snoc 1 r).symm,
      List.flatMap_append]
    simp only [List.flatMap_cons, List.flatMap_nil, List.append_nil]
    rw [show 1 + r = r + 1 from by omega]
  · dsimp only [midState, coKnitState]
    rw [Nat.succ_mul (r + 1) N]

/-- The token loop on the cast-on line `co N`: consume the numeral and run
the cast-on loop. -/
theorem castOn_exec (N : Nat) :
    processTokens [['c', 'o'], natDigits N] initState =
      .ok ⟨(List.range' 0 N).map (fun i => ⟨i, "co", "k", coTech⟩), hEdges true 0 N,
           List.range' 0 N, [], N, if N = 0 then true else false⟩ := by
  rw [processTokens_co_consume ['c', 'o'] (natDigits N) [] initState (Int.ofNat N)
      (by decide) (jsParseInt_natDigits N),
    show processTokens [] (castOnLoop (Int.ofNat N).toNat initState) =
      processTokens [] (castOnLoop N initState) from rfl,
    processTokens_nil]
  congr 1
  unfold castOnLoop
  rw [addLoop_eq]
  simp [initState]

/-- The end-of-line rule after the cast-on line yields the zero-row
boundary state. -/
theorem castOn_eol (N : Nat) (hN : 1 ≤ N) :
    endOfLine ⟨(List.range' 0 N).map (fun i => ⟨i, "co", "k", coTech⟩), hEdges true 0 N,
      List.range' 0 N, [], N, if N = 0 then true else false⟩ = coKnitState N 0 := by
  unfold endOfLine
  rw [if_neg (by simp [List.range'_eq_nil]; omega)]
  refine PState.ext ?_ ?_ rfl ?_ ?_ rfl
  · unfold coKnitState coKnitNodes
    rw [Nat.zero_mul, List.range'_zero, List.map_nil, List.append_nil, ← List.range_eq_range']
    rfl
  · unfold coKnitState coKnitEdges coEdges
    rw [hEdges_on, List.range'_zero, List.flatMap_nil, List.append_nil]
  · unfold coKnitState
    rw [Nat.zero_mul]
  · unfold coKnitState
    rw [show (0 + 1) * N = N from by omega]

/-- Running `R` knit rows from any row-boundary state. -/
theorem knit_rows (N : Nat) (hN : 1 ≤ N) : ∀ (R r : Nat),
    processLines (List.replicate R (kLineChars N)) (coKnitState N r) =
      .ok (coKnitState N (r + R)) := by
  intro R
  induction R with
  | zero =>
    intro r
    exact processLines_nil _
  | succ R ih =>
    intro r
    obtain ⟨n, rfl⟩ : ∃ n, N = n + 1 := ⟨N - 1, by omega⟩
    rw [show List.replicate (R + 1) (kLineChars (n + 1)) =
        kLineChars (n + 1) :: List.replicate R (kLineChars (n + 1)) from rfl,
      processLines_run (kLineChars (n + 1)) _ _ ['k'] (List.replicate n ['k'])
        (by rw [kLine_tokens]; rfl),
      show processTokens (['k'] :: List.replicate n ['k']) (coKnitState (n + 1) r) =
          .ok (midState (n + 1) r (n + 1)) from processRow (n + 1) r]
    dsimp only
    rw [midState_eol (n + 1) r (by omega), ih (r + 1),
      show r + 1 + R = r + (R + 1) from by omega]

/-- The compiler state machine on the full `co N` + `R` knit-row
pattern. -/
theorem parseState_coKnit (N R : Nat) (hN : 1 ≤ N) :
    parseState (coKnitPattern N R) = .ok (coKnitState N R) := by
  unfold parseState coKnitPattern
  rw [show (String.mk (coLineChars N ++
        (List.replicate R ('\n' :: kLineChars N)).flatten)).data =
      coLineChars N ++ (List.replicate R ('\n' :: kLineChars N)).flatten from rfl,
    coKnit_trim N R hN, coKnit_lines N R,
    processLines_run (coLineChars N) _ initState ['c', 'o'] [natDigits N]
      (by rw [coLine_tokens]),
    castOn_exec N]
  dsimp only
  rw [castOn_eol N hN, knit_rows N hN R 0, show 0 + R = R from by omega]

/-- Counting over a `flatMap` is summing the per-block counts. -/
theorem countP_flatMap {α β : Type} (p : β → Bool) (f : α → List β) (l : List α) :
    (l.flatMap f).countP p = (l.map (fun x => (f x).countP p)).sum := by
  induction l with
  | nil => rfl
  | cons a l ih => simp [List.flatMap_cons, List.countP_append, ih]

/-- Each knit stitch contributes exactly one vertical edge. -/
theorem rowPiece_vertical (N r j : Nat) :
    (rowPiece N r j).countP (fun e => decide (e.type = EdgeType.vertical)) = 1 := by
  unfold rowPiece
  by_cases hj : j = 0 <;>
    simp [hj, mkH, mkV, List.countP_append, List.countP_cons]

/-- Each knit stitch contributes one horizontal edge except the first of
its row. -/
theorem rowPiece_horizontal (N r j : Nat) :
    (rowPiece N r j).countP (fun e => decide (e.type = EdgeType.horizontal)) =
      if j = 0 then 0 else 1 := by
  unfold rowPiece
  by_cases hj : j = 0 <;>
    simp [hj, mkH, mkV, List.countP_append, List.countP_cons]

/-- Summing `1` over all positive indices below `n`. -/
theorem sum_if_range (n : Nat) :
    ((List.range n).map (fun j => if j = 0 then 0 else 1)).sum = n - 1 := by
  induction n with
  | zero => rfl
  | succ n ih =>
    rw [List.range_succ, List.map_append, List.sum_append, ih]
    by_cases hn : n = 0
    · subst hn
      rfl
    · simp [hn]
      omega

/-- A knit row of `N` columns contributes exactly `N` vertical edges. -/
theorem knitRowEdges_vertical (N r : Nat) :
    (knitRowEdges N r).countP (fun e => decide (e.type = EdgeType.vertical)) = N := by
  unfold knitRowEdges
  rw [countP_flatMap, List.map_congr_left (fun j _ => rowPiece_vertical N r j)]
  simp

/-- A knit row of `N` columns contributes exactly `N - 1` horizontal
edges. -/
theorem knitRowEdges_horizontal (N r : Nat) :
    (knitRowEdges N r).countP (fun e => decide (e.type = EdgeType.horizontal)) = N - 1 := by
  unfold knitRowEdges
  rw [countP_flatMap, List.map_congr_left (fun j _ => rowPiece_horizontal N r j),
    sum_if_range]

/-- The `co N` + `R` knit-row graph has `N × (R + 1)` nodes. -/
theorem coKnitNodes_length (N R : Nat) : (coKnitNodes N R).length = N * (R + 1) := by
  unfold coKnitNodes
  simp
  ring

/-- C1: for the pattern `co N` (with `N ≥ 1`) followed by `R` lines of `N`
knit tokens each, the compiler succeeds; the graph has exactly
`N × (R + 1)` nodes (counting the cast-on row); the edges are the cast-on
chain followed by the per-row contributions, and every knit row
contributes exactly `N` vertical and `N - 1` horizontal edges; and the
final state exhibits the end-of-line rule that delimits the rows: the last
row sits on the holding needle, the working needle is empty and the
edge-suppression flag is re-armed. -/
theorem claim_C1 (N R : Nat) (hN : 1 ≤ N) :
    parseState (coKnitPattern N R) = .ok (coKnitState N R) ∧
    (parsePattern (coKnitPattern N R)).success = true ∧
    (parsePattern (coKnitPattern N R)).nodes.length = N * (R + 1) ∧
    (parsePattern (coKnitPattern N R)).edges =
      coEdges N ++ (List.range' 1 R).flatMap (knitRowEdges N) ∧
    (∀ r, (knitRowEdges N r).countP (fun e => decide (e.type = EdgeType.vertical)) = N ∧
      (knitRowEdges N r).countP (fun e => decide (e.type = EdgeType.horizontal)) = N - 1) ∧
    (coKnitState N R).rightNeedle = [] ∧
    (coKnitState N R).leftNeedle = List.range' (R * N) N ∧
    (coKnitState N R).edgeFlag = true := by
  have hps := parseState_coKnit N R hN
  have hpp := parsePattern_of_ok _ _ hps
  refine ⟨hps, ?_, ?_, ?_,
    fun r => ⟨knitRowEdges_vertical N r, knitRowEdges_horizontal N r⟩, rfl, rfl, rfl⟩
  · rw [hpp]
  · rw [hpp]
    exact coKnitNodes_length N R
  · rw [hpp]
    rfl

/-- C1 (witness): the pattern `co 2` followed by two rows `k k` compiles to
the expected state with `2 × 3` nodes. -/
theorem claim_C1_witness :
    parseState (coKnitPattern 2 2) = .ok (coKnitState 2 2) ∧
    (parsePattern (coKnitPattern 2 2)).success = true ∧
    (parsePattern (coKnitPattern 2 2)).nodes.length = 2 * (2 + 1) :=
  ⟨(claim_C1 2 2 (by decide)).1, (claim_C1 2 2 (by decide)).2.1,
   (claim_C1 2 2 (by decide)).2.2.1⟩

/-! ### Grid seeding of a single cast-on row -/

/-- The single-line pattern `co N` compiles to the zero-row boundary
state. -/
theorem parseState_coPattern (N : Nat) (hN : 1 ≤ N) :
    parseState (coPattern N) = .ok (coKnitState N 0) := by
  have h := parseState_coKnit N 0 hN
  rw [show coKnitPattern N 0 = coPattern N from by
    unfold coKnitPattern coPattern
    rw [show ((List.replicate 0 ('\n' :: kLineChars N)).flatten : List Char) = [] from rfl,
      List.append_nil]] at h
  exact h

/-- The row-grouping scan keeps one row while consecutive nodes stay
connected by horizontal edges. -/
theorem groupRowsAux_chain (edgeData : List Edge) :
    ∀ (ns : List Node) (prev : Node) (current : List Node),
      List.Chain (fun a b => hasHorizontalEdge edgeData a.id b.id = true) prev ns →
      groupRowsAux edgeData prev current ns = [current ++ ns] := by
  intro ns
  induction ns with
  | nil =>
    intro prev current _
    rw [groupRowsAux]
    simp
  | cons n rest ih =>
    intro prev current hch
    obtain ⟨h1, h2⟩ := List.chain_cons.mp hch
    rw [groupRowsAux, if_pos h1, ih n (current ++ [n]) h2]
    simp

/-- A horizontally chained node list forms a single row group. -/
theorem groupRows_chain (edgeData : List Edge) (n : Node) (rest : List Node)
    (h : List.Chain (fun a b => hasHorizontalEdge edgeData a.id b.id = true) n rest) :
    groupRows edgeData (n :: rest) = [n :: rest] := by
  rw [groupRows, groupRowsAux_chain edgeData rest n [n] h]
  rfl

/-- Consecutive cast-on nodes are joined by the cast-on chain's horizontal
edges. -/
theorem coNodes_chain (N : Nat) :
    List.Chain' (fun a b => hasHorizontalEdge (coEdges N) a.id b.id = true)
      ((List.range N).map mkCoNode) := by
  rw [List.chain'_map]
  cases N with
  | zero => simp
  | succ n =>
    rw [List.chain'_range_succ]
    intro m hm
    unfold hasHorizontalEdge coEdges
    rw [List.any_eq_true]
    refine ⟨mkH m, List.mem_map.mpr ⟨m, ?_, rfl⟩, by simp [mkH, mkCoNode]⟩
    have : m ∈ List.range' 0 n := by
      rw [List.mem_range'_1]
      omega
    exact this

/-- Enumerating a function image of a `range'` block pairs each index with
its image. -/
theorem enumFrom_map (f : Nat → Node) : ∀ (m s : Nat),
    List.enumFrom s ((List.range' s m).map f) = (List.range' s m).map (fun i => (i, f i)) := by
  intro m
  induction m with
  | zero => intro s; rfl
  | succ m ih =>
    intro s
    rw [show List.range' s (m + 1) = s :: List.range' (s + 1) m from List.range'_succ s m 1,
      List.map_cons, List.enumFrom_cons, ih (s + 1), List.map_cons]

/-- Enumerating a function image of `range` pairs each index with its
image. -/
theorem enum_map_range (f : Nat → Node) (N : Nat) :
    ((List.range N).map f).enum = (List.range N).map (fun i => (i, f i)) := by
  rw [List.range_eq_range']
  exact enumFrom_map f N 0

/-- `find?` by key on a key-tagged map. -/
theorem find?_keyed (h : Nat → ℚ × ℚ) : ∀ (l : List Nat) (i : Nat), i ∈ l →
    ((l.map (fun j => (j, h j))).find? (fun p => p.1 = i)) = some (i, h i) := by
  intro l
  induction l with
  | nil => intro i hi; cases hi
  | cons a l ih =>
    intro i hi
    by_cases hai : a = i
    · subst hai
      rw [List.map_cons, List.find?_cons_of_pos _ (by simp)]
    · rw [List.map_cons, List.find?_cons_of_neg _ (by simp [hai]),
        ih i (by
          rcases List.mem_cons.mp hi with h1 | h1
          · exact absurd h1.symm hai
          · exact h1)]

/-- Position lookup on a key-tagged map. -/
theorem findPos_keyed (h : Nat → ℚ × ℚ) (l : List Nat) (i : Nat) (hi : i ∈ l) :
    findPos (l.map (fun j => (j, h j))) i = h i := by
  unfold findPos
  rw [find?_keyed h l i hi]

/-- The positions assigned to a single row of cast-on nodes at row index
zero: centered, uniformly spaced and at the common row height. -/
theorem gridRowPositions_single (gs : ℚ) (center : ℚ × ℚ) (startY vs : ℚ) (N : Nat) :
    gridRowPositions gs center 1 startY vs 0 ((List.range N).map mkCoNode) =
      (List.range N).map (fun (i : ℕ) =>
        (i, center.1 - ((N - 1 : Nat) : ℚ) * gs / 2 + (i : ℚ) * gs, startY)) := by
  unfold gridRowPositions
  norm_num
  rw [enum_map_range mkCoNode N, List.map_map]
  apply List.map_congr_left
  intro i _
  simp [mkCoNode]

/-- The full grid seeding of a single cast-on row: every node keeps its id,
sits at `y = 300` and at uniformly spaced `x` positions. -/
theorem addGridLayout_coRow (N : Nat) (hN : 1 ≤ N) :
    addGridLayout ((List.range N).map mkCoNode) (coEdges N) 40 (400, 300) =
      (List.range N).map (fun i =>
        ⟨i, "co", "k", coTech,
          400 - ((N - 1 : Nat) : ℚ) * 40 / 2 + (i : ℚ) * 40, 300⟩) := by
  have hcons : (List.range N).map mkCoNode =
      mkCoNode 0 :: (List.range' 1 (N - 1)).map mkCoNode := by
    obtain ⟨n, rfl⟩ : ∃ n, N = n + 1 := ⟨N - 1, by omega⟩
    rw [List.range_eq_range',
      show List.range' 0 (n + 1) = 0 :: List.range' 1 n from List.range'_succ 0 n 1,
      List.map_cons]
    rfl
  have hchain := coNodes_chain N
  rw [hcons] at hchain
  have hsorted : ((List.range N).map mkCoNode).insertionSort
      (fun a b => a.id ≤ b.id) = (List.range N).map mkCoNode :=
    List.Sorted.insertionSort_eq
      (List.Pairwise.map mkCoNode (fun a b h => h) (List.pairwise_le_range N))
  have hgroup : groupRows (coEdges N) ((List.range N).map mkCoNode) =
      [(List.range N).map mkCoNode] := by
    rw [hcons]
    exact groupRows_chain _ _ _ hchain
  unfold addGridLayout
  split
  · rename_i hnil
    rw [hcons] at hnil
    cases hnil
  · dsimp only
    rw [hsorted, hgroup]
    simp only [List.length_singleton,
      show ∀ g : List Node, ([g].enum) = [(0, g)] from fun g => rfl,
      List.flatMap_cons, List.flatMap_nil, List.append_nil]
    rw [gridRowPositions_single 40 (400, 300) _ _ N, List.map_map]
    apply List.map_congr_left
    intro i hi
    show positionNode (mkCoNode i) (findPos _ (mkCoNode i).id) = _
    rw [show (mkCoNode i).id = i from rfl, findPos_keyed _ (List.range N) i hi]
    unfold positionNode mkCoNode
    norm_num

/-- C6: for the compiled single-row pattern `co N` (`N ≥ 1`), the grid
seeder with the source defaults (`gridSpacing = 40`, `center = (400, 300)`)
places all `N` nodes at one common `y` coordinate, with `x` strictly
increasing in uniform steps equal to the grid spacing; and for an empty
node list it returns the empty position set. -/
theorem claim_C6 (N : Nat) (hN : 1 ≤ N) :
    (addGridLayout (parsePattern (coPattern N)).nodes
        (parsePattern (coPattern N)).edges 40 (400, 300)).length = N ∧
    (∀ p ∈ addGridLayout (parsePattern (coPattern N)).nodes
        (parsePattern (coPattern N)).edges 40 (400, 300), p.y = 300) ∧
    List.Chain' (fun a b => b.x = a.x + 40)
      (addGridLayout (parsePattern (coPattern N)).nodes
        (parsePattern (coPattern N)).edges 40 (400, 300)) ∧
    addGridLayout [] [] 40 (400, 300) = [] := by
  have hps := parseState_coPattern N hN
  have hpp := parsePattern_of_ok _ _ hps
  have hnodes : (parsePattern (coPattern N)).nodes = (List.range N).map mkCoNode := by
    rw [hpp]
    show (coKnitState N 0).allNodes = _
    simp [coKnitState, coKnitNodes]
  have hedges : (parsePattern (coPattern N)).edges = coEdges N := by
    rw [hpp]
    show (coKnitState N 0).allEdges = _
    simp [coKnitState, coKnitEdges]
  rw [hnodes, hedges, addGridLayout_coRow N hN]
  refine ⟨by simp, ?_, ?_, rfl⟩
  · intro p hp
    rcases List.mem_map.mp hp with ⟨i, _, rfl⟩
    rfl
  · rw [List.chain'_map]
    obtain ⟨n, rfl⟩ : ∃ n, N = n + 1 := ⟨N - 1, by omega⟩
    rw [List.chain'_range_succ]
    intro m hm
    show (400 : ℚ) - _ + _ = (400 : ℚ) - _ + _ + 40
    push_cast
    ring

/-- C6 (witness): the two-stitch cast-on row `co 2`. -/
theorem claim_C6_witness :
    (addGridLayout (parsePattern (coPattern 2)).nodes
        (parsePattern (coPattern 2)).edges 40 (400, 300)).length = 2 ∧
    addGridLayout [] [] 40 (400, 300) = [] :=
  ⟨(claim_C6 2 (by decide)).1, (claim_C6 2 (by decide)).2.2.2⟩

/-! ### The `turn` filter never leaks a `turn` token -/

/-- `Char.ofNat` on a valid scalar value round-trips through `toNat`. -/
theorem toNat_ofNat_valid (n : Nat) (h : n.isValidChar) : (Char.ofNat n).toNat = n := by
  unfold Char.ofNat
  rw [dif_pos h]
  rfl

/-- A character whose lowercase form is a lowercase letter is a word
character. -/
theorem toLower_word (c d : Char) (hd1 : 97 ≤ d.toNat) (hd2 : d.toNat ≤ 122)
    (h : c.toLower = d) : isWordChar c = true := by
  unfold Char.toLower at h
  simp only [] at h
  split_ifs at h with hc
  · have hval : (c.toNat + 32).isValidChar := Or.inl (by omega)
    have h2 := congrArg Char.toNat h
    rw [toNat_ofNat_valid _ hval] at h2
    simp only [isWordChar, Bool.or_eq_true, decide_eq_true_eq, Bool.and_eq_true]
    exact Or.inl (Or.inl (Or.inr ⟨show (65 : Nat) ≤ c.toNat from by omega,
      show c.toNat ≤ (90 : Nat) from by omega⟩))
  · subst h
    simp only [isWordChar, Bool.or_eq_true, decide_eq_true_eq, Bool.and_eq_true]
    exact Or.inl (Or.inl (Or.inl ⟨show (97 : Nat) ≤ c.toNat from hd1,
      show c.toNat ≤ (122 : Nat) from hd2⟩))

/-- Lowercasing fixes characters outside the uppercase range. -/
theorem toLower_not_upper (c : Char) (h : ¬(c.toNat ≥ 65 ∧ c.toNat ≤ 90)) :
    c.toLower = c := by
  unfold Char.toLower
  simp only []
  rw [if_neg h]

/-- Whitespace characters are not word characters. -/
theorem ws_not_word (c : Char) (h : jsIsWs c = true) : isWordChar c = false := by
  simp only [jsIsWs, Bool.or_eq_true, decide_eq_true_eq] at h
  rcases h with ((((h | h) | h) | h) | h) | h <;> subst h <;> decide

/-- The scanner of short lists never flags a `turn`. -/
theorem isTurnAt_short (l : List Char) (h : l.length ≤ 3) : isTurnAt l = false := by
  match l with
  | [] => rfl
  | [_] => rfl
  | [_, _] => rfl
  | [_, _, _] => rfl
  | _ :: _ :: _ :: _ :: _ => simp at h

/-- The turn-removal scan leaves lists shorter than the pattern alone. -/
theorem removeTurnAux_short (prev : Option Char) (l : List Char) (h : l.length ≤ 3) :
    removeTurnAux prev l = l := by
  match l with
  | [] => rfl
  | [_] => rfl
  | [_, _] => rfl
  | [_, _, _] => rfl
  | _ :: _ :: _ :: _ :: _ => simp at h

/-- After a word character no removal can fire at the head, so the scan
emits the head and continues. -/
theorem step_blocked (c : Char) (l : List Char) (p : Char)
    (hp : prevOk (some p) = false) :
    removeTurnAux (some p) (c :: l) = c :: removeTurnAux (some c) l := by
  match l with
  | c2 :: c3 :: c4 :: rest =>
    rw [removeTurnAux, if_neg (by
      rintro ⟨h1, _⟩
      rw [hp] at h1
      cases h1)]
  | [] => rfl
  | [c2] => rfl
  | [c2, c3] => rfl

/-- With a word character before it, the scan preserves the head of the
list. -/
theorem removeTurnAux_head (l : List Char) (p : Char) (hp : prevOk (some p) = false) :
    (removeTurnAux (some p) l).head? = l.head? := by
  cases l with
  | nil => rfl
  | cons c l' =>
    rw [step_blocked c l' p hp]
    rfl

/-- Scanner reduction: a whitespace head restores the boundary flag. -/
theorem noTurnTokens_ws (b : Bool) (c : Char) (cs : List Char) (h : jsIsWs c = true) :
    noTurnTokens b (c :: cs) = noTurnTokens true cs := by
  rw [noTurnTokens, if_pos h]

/-- Scanner reduction: a clean non-whitespace head clears the flag. -/
theorem noTurnTokens_cons (b : Bool) (c : Char) (cs : List Char) (hc : jsIsWs c = false)
    (h : ¬(b = true ∧ isTurnAt (c :: cs) = true)) :
    noTurnTokens b (c :: cs) = noTurnTokens false cs := by
  rw [noTurnTokens, if_neg (by simp [hc]), if_neg (by simpa using h)]

/-- Scanner reduction: a flagged `turn` at a boundary rejects. -/
theorem noTurnTokens_isTurn (c : Char) (cs : List Char) (hc : jsIsWs c = false)
    (h : isTurnAt (c :: cs) = true) :
    noTurnTokens true (c :: cs) = false := by
  rw [noTurnTokens, if_neg (by simp [hc]), if_pos (by simp [h])]

/-- The scanner without the boundary flag skips a whitespace-free run. -/
theorem noTurn_skip_run (rest : List Char) : ∀ (r : List Char),
    (∀ c ∈ r, jsIsWs c = false) →
    noTurnTokens false (r ++ rest) = noTurnTokens false rest := by
  intro r
  induction r with
  | nil => intro _; rfl
  | cons c r ih =>
    intro h
    rw [List.cons_append,
      noTurnTokens_cons false c (r ++ rest) (h c (by simp)) (by simp),
      ih (fun x hx => h x (by simp [hx]))]

/-- A run that lowercases to `turn`, placed before a token boundary, is
flagged by the scanner. -/
theorem turn_run_isTurnAt (r rest : List Char)
    (hlow : lowerToken r = ['t', 'u', 'r', 'n'])
    (hbd : rest = [] ∨ ∃ w rest', rest = w :: rest' ∧ jsIsWs w = true) :
    isTurnAt (r ++ rest) = true := by
  rcases r with _ | ⟨c1, _ | ⟨c2, _ | ⟨c3, _ | ⟨c4, _ | ⟨c5, rr⟩⟩⟩⟩⟩ <;>
    simp only [lowerToken, List.map_cons, List.map_nil, List.cons.injEq, and_true,
      List.map_eq_nil_iff, reduceCtorEq] at hlow
  · exact absurd hlow (by simp)
  · exact absurd hlow (by simp)
  · exact absurd hlow (by simp)
  · obtain ⟨h1, h2, h3, h4⟩ := hlow
    show isTurnAt (c1 :: c2 :: c3 :: c4 :: rest) = true
    rcases hbd with rfl | ⟨w, rest', rfl, hw⟩
    · rw [show isTurnAt (c1 :: c2 :: c3 :: c4 :: []) =
          (isTurn4 c1 c2 c3 c4 && true) from rfl]
      simp [isTurn4, h1, h2, h3, h4]
    · rw [show isTurnAt (c1 :: c2 :: c3 :: c4 :: w :: rest') =
          (isTurn4 c1 c2 c3 c4 && jsIsWs w) from rfl]
      simp [isTurn4, h1, h2, h3, h4, hw]
  · obtain ⟨_, _, _, _, hlow⟩ := hlow
    exact absurd hlow (by simp)

/-- The scanner head test on a four-character window, in equational
form. -/
theorem isTurnAt_cons_eq (c1 c2 c3 c4 : Char) (r : List Char) :
    isTurnAt (c1 :: c2 :: c3 :: c4 :: r) =
      (isTurn4 c1 c2 c3 c4 && (match r with | [] => true | c :: _ => jsIsWs c)) := rfl

/-- Decomposing the tokenization at a leading non-whitespace character:
the maximal head run, the whitespace-or-empty remainder, and the first
token. -/
theorem splitRuns_decomp (l : List Char) : ∀ (c : Char), jsIsWs c = false →
    ∃ r rest, c :: l = (c :: r) ++ rest ∧ (∀ x ∈ c :: r, jsIsWs x = false) ∧
      (rest = [] ∨ ∃ w rest', rest = w :: rest' ∧ jsIsWs w = true) ∧
      splitRuns (c :: l) = (c :: r) :: splitRuns rest := by
  induction l with
  | nil =>
    intro c hc
    refine ⟨[], [], rfl, by simp [hc], Or.inl rfl, ?_⟩
    simp [splitRuns, hc]
  | cons d ds ih =>
    intro c hc
    by_cases hd : jsIsWs d = true
    · exact ⟨[], d :: ds, rfl, by simp [hc], Or.inr ⟨d, ds, rfl, hd⟩, by
        rw [splitRuns_cons_cons_ws c d ds hc hd, splitRuns_ws_cons d ds hd]⟩
    · have hd' : jsIsWs d = false := by simpa using hd
      obtain ⟨r, rest, hcat, hall, hbd, hsp⟩ := ih d hd'
      refine ⟨d :: r, rest, ?_, ?_, hbd, ?_⟩
      · rw [show (c :: d :: r) ++ rest = c :: ((d :: r) ++ rest) from rfl, ← hcat]
      · intro x hx
        rcases List.mem_cons.mp hx with rfl | hx2
        · exact hc
        · exact hall x hx2
      · rw [splitRuns_cons_run c d ds (d :: r) (splitRuns rest) hc hd' hsp]

/-- The scanner accepts every list too short to hold a `turn`. -/
theorem noTurnTokens_short (l : List Char) (h : l.length ≤ 3) :
    ∀ b, noTurnTokens b l = true := by
  induction l with
  | nil => intro b; rfl
  | cons c cs ih =>
    intro b
    by_cases hc : jsIsWs c = true
    · rw [noTurnTokens_ws b c cs hc]
      exact ih (by simp at h ⊢; omega) true
    · rw [noTurnTokens_cons b c cs (by simpa using hc) (by
        rintro ⟨_, hit⟩
        rw [isTurnAt_short (c :: cs) h] at hit
        cases hit)]
      exact ih (by simp at h ⊢; omega) false

/-- A list accepted by the scanner has no `turn` among its tokens. -/
theorem noTurn_tokens : ∀ (n : Nat) (l : List Char), l.length ≤ n →
    noTurnTokens true l = true →
    ∀ t ∈ splitRuns l, lowerToken t ≠ ['t', 'u', 'r', 'n'] := by
  intro n
  induction n with
  | zero =>
    intro l hl _ t ht
    have hnil : l = [] := List.length_eq_zero.mp (by omega)
    subst hnil
    simp [splitRuns] at ht
  | succ n ih =>
    intro l hl hnt t ht
    cases l with
    | nil => simp [splitRuns] at ht
    | cons c cs =>
      by_cases hc : jsIsWs c = true
      · rw [splitRuns_ws_cons c cs hc] at ht
        rw [noTurnTokens_ws true c cs hc] at hnt
        exact ih cs (by simp at hl; omega) hnt t ht
      · have hc' : jsIsWs c = false := by simpa using hc
        obtain ⟨r, rest, hcat, hall, hbd, hsp⟩ := splitRuns_decomp cs c hc'
        have hturn : isTurnAt (c :: cs) = false := by
          cases hit : isTurnAt (c :: cs) with
          | false => rfl
          | true =>
            rw [noTurnTokens_isTurn c cs hc' hit] at hnt
            cases hnt
        have hcs : cs = r ++ rest := by
          have h2 : c :: cs = c :: (r ++ rest) := hcat
          injection h2
        have hrest : noTurnTokens false rest = true := by
          rw [noTurnTokens_cons true c cs hc' (by
              rintro ⟨_, hit⟩
              rw [hturn] at hit
              cases hit),
            hcs, noTurn_skip_run rest r (fun x hx => hall x (by simp [hx]))] at hnt
          exact hnt
        rw [hsp] at ht
        rcases List.mem_cons.mp ht with rfl | ht2
        · intro hlow
          have hat : isTurnAt ((c :: r) ++ rest) = true := turn_run_isTurnAt (c :: r) rest hlow hbd
          rw [← hcat, hturn] at hat
          cases hat
        · rcases hbd with rfl | ⟨w, rest', rfl, hw⟩
          · simp [splitRuns] at ht2
          · rw [splitRuns_ws_cons w rest' hw] at ht2
            rw [noTurnTokens_ws false w rest' hw] at hrest
            refine ih rest' ?_ hrest t ht2
            have hlen2 := congrArg List.length hcs
            simp at hlen2 hl
            omega

/-- The scanner accepts everything the turn-removal scan emits, given the
boundary invariant relating the scanner flag to the scan's previous
character. -/
theorem removeTurn_scan : ∀ (n : Nat) (l : List Char) (prev : Option Char) (b : Bool),
    l.length ≤ n →
    (b = true → prevOk prev = true ∨ ∀ c, l.head? = some c → isWordChar c = false) →
    noTurnTokens b (removeTurnAux prev l) = true := by
  intro n
  induction n with
  | zero =>
    intro l prev b hl _
    have hnil : l = [] := List.length_eq_zero.mp (by omega)
    subst hnil
    rfl
  | succ n ih =>
    intro l prev b hl hinv
    match l, hl with
    | [], _ => rfl
    | [x1], _ => exact noTurnTokens_short _ (by simp [removeTurnAux_short]) b
    | [x1, x2], _ => exact noTurnTokens_short _ (by simp [removeTurnAux_short]) b
    | [x1, x2, x3], _ => exact noTurnTokens_short _ (by simp [removeTurnAux_short]) b
    | c1 :: c2 :: c3 :: c4 :: rest, hl =>
      by_cases hm : prevOk prev = true ∧ isTurn4 c1 c2 c3 c4 = true ∧ nextOk rest = true
      · rw [removeTurnAux, if_pos (by
          obtain ⟨hm1, hm2, hm3⟩ := hm
          exact ⟨hm1, hm2, hm3⟩)]
        refine ih rest (some c4) b (by simp at hl; omega) ?_
        intro _
        refine Or.inr ?_
        intro c hhead
        obtain ⟨hm1, hm2, hm3⟩ := hm
        cases rest with
        | nil => cases hhead
        | cons c5 rest' =>
          cases hhead
          unfold nextOk at hm3
          simpa using hm3
      · rw [removeTurnAux, if_neg (by
          rintro ⟨hm1, hm2, hm3⟩
          exact hm ⟨hm1, hm2, hm3⟩)]
        by_cases hc1 : jsIsWs c1 = true
        · rw [noTurnTokens_ws b c1 _ hc1]
          refine ih (c2 :: c3 :: c4 :: rest) (some c1) true (by simp at hl ⊢; omega) ?_
          intro _
          exact Or.inl (by simp [prevOk, ws_not_word c1 hc1])
        · have hc1' : jsIsWs c1 = false := by simpa using hc1
          by_cases hit : b = true ∧ isTurnAt (c1 :: removeTurnAux (some c1)
              (c2 :: c3 :: c4 :: rest)) = true
          · exfalso
            obtain ⟨hb, hturnAt⟩ := hit
            rcases hout : removeTurnAux (some c1) (c2 :: c3 :: c4 :: rest) with
              _ | ⟨x2, _ | ⟨x3, _ | ⟨x4, r'⟩⟩⟩
            · rw [hout] at hturnAt
              rw [isTurnAt_short _ (by simp)] at hturnAt
              cases hturnAt
            · rw [hout] at hturnAt
              rw [isTurnAt_short _ (by simp)] at hturnAt
              cases hturnAt
            · rw [hout] at hturnAt
              rw [isTurnAt_short _ (by simp)] at hturnAt
              cases hturnAt
            · rw [hout] at hturnAt
              rw [isTurnAt_cons_eq, Bool.and_eq_true] at hturnAt
              obtain ⟨ht4, hbdy⟩ := hturnAt
              unfold isTurn4 at ht4
              simp only [Bool.and_eq_true, decide_eq_true_eq] at ht4
              obtain ⟨hl1, hl2, hl3, hl4⟩ := ht4
              have hw1 : isWordChar c1 = true := toLower_word c1 't' (by decide) (by decide) hl1
              -- the head invariant forces a word-boundary before `c1`
              have hprev : prevOk prev = true := by
                rcases hinv hb with hp | hhd
                · exact hp
                · have := hhd c1 rfl
                  rw [hw1] at this
                  cases this
              -- peel the emitted characters: they are the input characters
              rw [step_blocked c2 (c3 :: c4 :: rest) c1 (by simp [prevOk, hw1])] at hout
              injection hout with he2 hout2
              rw [← he2] at hl2
              have hw2 : isWordChar c2 = true := toLower_word c2 'u' (by decide) (by decide) hl2
              rw [step_blocked c3 (c4 :: rest) c2 (by simp [prevOk, hw2])] at hout2
              injection hout2 with he3 hout3
              rw [← he3] at hl3
              have hw3 : isWordChar c3 = true := toLower_word c3 'r' (by decide) (by decide) hl3
              rw [step_blocked c4 rest c3 (by simp [prevOk, hw3])] at hout3
              injection hout3 with he4 hout4
              rw [← he4] at hl4
              have hw4 : isWordChar c4 = true := toLower_word c4 'n' (by decide) (by decide) hl4
              have hhead : rest.head? = r'.head? := by
                rw [← hout4, removeTurnAux_head rest c4 (by simp [prevOk, hw4])]
              -- the output boundary after the run transfers to the input
              have hnext : nextOk rest = true := by
                cases r' with
                | nil =>
                  cases hrest : rest with
                  | nil => rfl
                  | cons c5 rest5 =>
                    rw [hrest] at hhead
                    simp at hhead
                | cons w r'' =>
                  cases hrest : rest with
                  | nil =>
                    rw [hrest] at hhead
                    simp at hhead
                  | cons c5 rest5 =>
                    rw [hrest] at hhead
                    have hc5 : c5 = w := by simpa using hhead
                    have hwsw : jsIsWs w = true := by simpa using hbdy
                    unfold nextOk
                    rw [hc5]
                    simp [ws_not_word w hwsw]
              exact hm ⟨hprev, by
                unfold isTurn4
                simp [hl1, hl2, hl3, hl4], hnext⟩
          · rw [noTurnTokens_cons b c1 _ hc1' hit]
            refine ih (c2 :: c3 :: c4 :: rest) (some c1) false (by simp at hl ⊢; omega) ?_
            intro hfalse
            cases hfalse

/-- The turn-removal pass leaves no `turn` for the scanner to flag. -/
theorem removeTurn_noTurn (l : List Char) : noTurnTokens true (removeTurn l) = true :=
  removeTurn_scan l.length l none true le_rfl (fun _ => Or.inl rfl)

/-- No token of the turn-removal output is `turn`. -/
theorem removeTurn_tokens (l : List Char) :
    ∀ t ∈ splitRuns (removeTurn l), lowerToken t ≠ ['t', 'u', 'r', 'n'] :=
  noTurn_tokens (removeTurn l).length (removeTurn l) le_rfl (removeTurn_noTurn l)

/-- A whitespace-only list has no tokens. -/
theorem splitRuns_all_ws (s : List Char) (h : ∀ c ∈ s, jsIsWs c = true) :
    splitRuns s = [] := by
  induction s with
  | nil => rfl
  | cons c cs ih =>
    rw [splitRuns_ws_cons c cs (h c (by simp)), ih (fun x hx => h x (by simp [hx]))]

/-- Appending trailing whitespace does not change the token list. -/
theorem splitRuns_append_ws (suffix : List Char) (hs : ∀ c ∈ suffix, jsIsWs c = true) :
    ∀ (n : Nat) (m : List Char), m.length ≤ n →
      splitRuns (m ++ suffix) = splitRuns m := by
  intro n
  induction n with
  | zero =>
    intro m hm
    have : m = [] := List.length_eq_zero.mp (by omega)
    subst this
    rw [List.nil_append, splitRuns_all_ws suffix hs]
    rfl
  | succ n ih =>
    intro m hm
    match m with
    | [] =>
      rw [List.nil_append, splitRuns_all_ws suffix hs]
      rfl
    | [c] =>
      by_cases hc : jsIsWs c = true
      · rw [List.cons_append, List.nil_append, splitRuns_ws_cons c suffix hc,
          splitRuns_all_ws suffix hs]
        simp [splitRuns, hc]
      · have hc' : jsIsWs c = false := by simpa using hc
        cases hsuf : suffix with
        | nil => simp
        | cons w suf' =>
          have hsw : jsIsWs w = true := hs w (by simp [hsuf])
          have hss : ∀ x ∈ suf', jsIsWs x = true := fun x hx => hs x (by simp [hsuf, hx])
          rw [List.cons_append, List.nil_append,
            splitRuns_cons_cons_ws c w suf' hc' hsw, splitRuns_all_ws suf' hss]
          simp [splitRuns, hc']
    | c :: d :: m'' =>
      by_cases hc : jsIsWs c = true
      · rw [List.cons_append, splitRuns_ws_cons c _ hc, splitRuns_ws_cons c _ hc]
        exact ih (d :: m'') (by simp at hm ⊢; omega)
      · have hc' : jsIsWs c = false := by simpa using hc
        by_cases hd : jsIsWs d = true
        · rw [List.cons_append, List.cons_append,
            splitRuns_cons_cons_ws c d _ hc' hd, splitRuns_cons_cons_ws c d m'' hc' hd]
          have := ih (d :: m'') (by simp at hm ⊢; omega)
          rw [List.cons_append, splitRuns_ws_cons d _ hd, splitRuns_ws_cons d m'' hd] at this
          rw [this]
        · have hd' : jsIsWs d = false := by simpa using hd
          obtain ⟨r, rest, hcat, hall, hbd, hsp⟩ := splitRuns_decomp m'' d hd'
          have hih := ih (d :: m'') (by simp at hm ⊢; omega)
          rw [List.cons_append, hsp] at hih
          rw [List.cons_append, List.cons_append,
            splitRuns_cons_run c d (m'' ++ suffix) (d :: r) (splitRuns rest) hc' hd' hih,
            splitRuns_cons_run c d m'' (d :: r) (splitRuns rest) hc' hd' hsp]

/-- Left-trimming does not change the token list. -/
theorem splitRuns_trimLeft (l : List Char) : splitRuns (trimLeft l) = splitRuns l := by
  induction l with
  | nil => rfl
  | cons c cs ih =>
    by_cases hc : jsIsWs c = true
    · unfold trimLeft at ih ⊢
      rw [List.dropWhile_cons, if_pos (by simp [hc]), ih, splitRuns_ws_cons c cs hc]
    · unfold trimLeft
      rw [List.dropWhile_cons, if_neg (by simp [hc])]

/-- Trimming does not change the token list. -/
theorem splitRuns_trim (l : List Char) : splitRuns (jsTrimList l) = splitRuns l := by
  unfold jsTrimList
  have h0 : (trimLeft l).reverse.takeWhile jsIsWs ++ (trimLeft l).reverse.dropWhile jsIsWs =
      (trimLeft l).reverse := List.takeWhile_append_dropWhile jsIsWs (trimLeft l).reverse
  have h1 := congrArg List.reverse h0
  rw [List.reverse_append, List.reverse_reverse] at h1
  have h2 : splitRuns (trimLeft l) =
      splitRuns (((trimLeft l).reverse.dropWhile jsIsWs).reverse ++
        ((trimLeft l).reverse.takeWhile jsIsWs).reverse) := by
    rw [h1]
  rw [splitRuns_append_ws _ (fun c hc => List.mem_takeWhile_imp (List.mem_reverse.mp hc))
      (((trimLeft l).reverse.dropWhile jsIsWs).reverse.length) _ le_rfl] at h2
  rw [← h2, splitRuns_trimLeft]

/-- A split at a non-separator head extends the first field. -/
theorem splitOnChar_head (sep d : Char) (ds : List Char) (hd : d ≠ sep) :
    ∃ t' ts, splitOnChar sep (d :: ds) = (d :: t') :: ts := by
  cases h : splitOnChar sep ds with
  | nil => exact absurd h (splitOnChar_ne_nil sep ds)
  | cons u us =>
    refine ⟨u, us, ?_⟩
    rw [splitOnChar, if_neg hd, h]

/-- Tokenizing line by line after splitting at newlines gives exactly the
tokens of the whole text (newlines are whitespace). -/
theorem splitRuns_join : ∀ (n : Nat) (l : List Char), l.length ≤ n →
    ((splitOnChar '\n' l).map splitRuns).flatten = splitRuns l := by
  intro n
  induction n with
  | zero =>
    intro l hl
    have : l = [] := List.length_eq_zero.mp (by omega)
    subst this
    rfl
  | succ n ih =>
    intro l hl
    match l with
    | [] => rfl
    | c :: cs =>
      by_cases hcnl : c = '\n'
      · subst hcnl
        rw [show splitOnChar '\n' ('\n' :: cs) = [] :: splitOnChar '\n' cs from by
            rw [splitOnChar.eq_def]; simp,
          List.map_cons, List.flatten_cons, ih cs (by simp at hl; omega),
          splitRuns_ws_cons '\n' cs (by decide)]
        rfl
      · match cs with
        | [] =>
          rw [splitOnChar_no_sep '\n' [c] (by simpa using hcnl)]
          simp
        | d :: ds =>
          by_cases hdnl : d = '\n'
          · subst hdnl
            have hc : jsIsWs c = false ∨ jsIsWs c = true := by
              cases jsIsWs c
              · exact Or.inl rfl
              · exact Or.inr rfl
            rw [show splitOnChar '\n' (c :: '\n' :: ds) = [c] :: splitOnChar '\n' ds from by
                rw [splitOnChar.eq_def]
                simp only [hcnl, if_false]
                rw [show splitOnChar '\n' ('\n' :: ds) = [] :: splitOnChar '\n' ds from by
                  rw [splitOnChar.eq_def]; simp]]
            rw [List.map_cons, List.flatten_cons, ih ds (by simp at hl; omega)]
            rcases hc with hc | hc
            · rw [splitRuns_cons_cons_ws c '\n' ds hc (by decide)]
              simp [splitRuns, hc]
            · rw [splitRuns_ws_cons c ('\n' :: ds) hc, splitRuns_ws_cons '\n' ds (by decide),
                splitRuns_all_ws [c] (by simp [hc])]
              rfl
          · obtain ⟨t', ts, hsoc⟩ := splitOnChar_head '\n' d ds hdnl
            have hih := ih (d :: ds) (by simp at hl ⊢; omega)
            rw [hsoc, List.map_cons, List.flatten_cons] at hih
            rw [show splitOnChar '\n' (c :: d :: ds) = (c :: d :: t') :: ts from by
                rw [splitOnChar.eq_def]
                simp only [hcnl, if_false]
                rw [hsoc],
              List.map_cons, List.flatten_cons]
            by_cases hc : jsIsWs c = true
            · rw [splitRuns_ws_cons c _ hc, splitRuns_ws_cons c _ hc, hih]
            · have hc' : jsIsWs c = false := by simpa using hc
              by_cases hd : jsIsWs d = true
              · rw [splitRuns_cons_cons_ws c d t' hc' hd, splitRuns_cons_cons_ws c d ds hc' hd]
                rw [splitRuns_ws_cons d t' hd, splitRuns_ws_cons d ds hd] at hih
                rw [List.cons_append, hih]
              · have hd' : jsIsWs d = false := by simpa using hd
                obtain ⟨r1, rest1, _, _, _, hsp1⟩ := splitRuns_decomp t' d hd'
                obtain ⟨r2, rest2, _, _, _, hsp2⟩ := splitRuns_decomp ds d hd'
                rw [hsp1, hsp2] at hih
                rw [List.cons_append] at hih
                have hr : r1 = r2 ∧ splitRuns rest1 ++ (ts.map splitRuns).flatten =
                    splitRuns rest2 := by
                  have h2 := hih
                  injection h2 with hh ht
                  injection hh with _ hh2
                  exact ⟨hh2, ht⟩
                rw [splitRuns_cons_run c d t' (d :: r1) (splitRuns rest1) hc' hd' hsp1,
                  splitRuns_cons_run c d ds (d :: r2) (splitRuns rest2) hc' hd' hsp2,
                  List.cons_append, hr.1, hr.2]

/-- The token stream of any input string is the whitespace tokenization of
its character list: line splitting and trimming change nothing. -/
theorem allTokens_eq (s : String) : allTokens s = splitRuns s.data := by
  unfold allTokens
  rw [splitRuns_join (jsTrimList s.data).length (jsTrimList s.data) le_rfl, splitRuns_trim]

/-- A whitespace-free run before a whitespace character is the first
token. -/
theorem splitRuns_run_append : ∀ (r : List Char) (w : Char) (rest : List Char),
    r ≠ [] → (∀ c ∈ r, jsIsWs c = false) → jsIsWs w = true →
    splitRuns (r ++ w :: rest) = r :: splitRuns rest := by
  intro r
  induction r with
  | nil => intro w rest hne _ _; exact absurd rfl hne
  | cons c r' ih =>
    intro w rest _ hall hw
    cases r' with
    | nil =>
      rw [List.cons_append, List.nil_append,
        splitRuns_cons_cons_ws c w rest (hall c (by simp)) hw]
    | cons d r'' =>
      rw [List.cons_append, List.cons_append,
        splitRuns_cons_run c d (r'' ++ w :: rest) (d :: r'') (splitRuns rest)
          (hall c (by simp)) (hall d (by simp)) (by
            rw [← List.cons_append]
            exact ih w rest (by simp) (fun x hx => hall x (by simp [hx])) hw)]

/-- Lowercasing fixes digits. -/
theorem digit_toLower (c : Char) (h : c.isDigit = true) : c.toLower = c := by
  apply toLower_not_upper
  simp only [Char.isDigit, Bool.and_eq_true, decide_eq_true_eq] at h
  have h1 : (48 : Nat) ≤ c.toNat := h.1
  have h2 : c.toNat ≤ (57 : Nat) := h.2
  omega

/-- A decimal numeral never lowercases to `turn`. -/
theorem digits_not_turn (K : Nat) : lowerToken (natDigits K) ≠ ['t', 'u', 'r', 'n'] := by
  intro hlow
  rcases List.eq_nil_or_concat (natDigits K) with hnil | _
  · exact absurd hnil (natDigits_ne_nil K)
  · cases hd : natDigits K with
    | nil => exact absurd hd (natDigits_ne_nil K)
    | cons d ds =>
      rw [hd] at hlow
      simp only [lowerToken, List.map_cons, List.cons.injEq] at hlow
      have hdig : d.isDigit = true := natDigits_digits K d (by rw [hd]; simp)
      rw [digit_toLower d hdig] at hlow
      have : d = 't' := hlow.1
      rw [this] at hdig
      cases hdig

/-- C10: from the Process Pattern entry point every input is compiled
through `filterPattern`; after filtering, no whitespace-delimited token of
the compiled text is (case-insensitively) `turn`, and the text always
starts with a cast-on token: either the filtered text already started with
`co`, or a line `co N` was prepended, with `N = countColumns` of the
filtered text when that count is positive and `N = 10` otherwise. -/
theorem claim_C10 (p : String) :
    (∀ raw : String, processPatternResult raw =
        parsePattern (filterPattern (String.mk (jsTrimList raw.data)))) ∧
    (∀ t ∈ allTokens (filterPattern p), lowerToken t ≠ "turn".data) ∧
    (∃ t ts, allTokens (filterPattern p) = t :: ts ∧ startsWithCo (lowerToken t) = true) ∧
    ((∃ t ts, splitRuns (jsTrimList (removeTurn p.data)) = t :: ts ∧
        startsWithCo (lowerToken t) = true ∧
        filterPattern p = String.mk (jsTrimList (removeTurn p.data))) ∨
      (countColumns (String.mk (jsTrimList (removeTurn p.data))) > 0 ∧
        filterPattern p = String.mk ('c' :: 'o' :: ' ' ::
          (natDigits (countColumns (String.mk (jsTrimList (removeTurn p.data)))).toNat ++
            '\n' :: jsTrimList (removeTurn p.data)))) ∨
      (¬countColumns (String.mk (jsTrimList (removeTurn p.data))) > 0 ∧
        filterPattern p = String.mk ('c' :: 'o' :: ' ' :: '1' :: '0' ::
          '\n' :: jsTrimList (removeTurn p.data)))) := by
  have hft : ∀ t ∈ splitRuns (jsTrimList (removeTurn p.data)),
      lowerToken t ≠ ['t', 'u', 'r', 'n'] := by
    rw [splitRuns_trim]
    exact removeTurn_tokens p.data
  have hcases : (∃ t ts, splitRuns (jsTrimList (removeTurn p.data)) = t :: ts ∧
        startsWithCo (lowerToken t) = true ∧
        filterPattern p = String.mk (jsTrimList (removeTurn p.data))) ∨
      (countColumns (String.mk (jsTrimList (removeTurn p.data))) > 0 ∧
        filterPattern p = String.mk ('c' :: 'o' :: ' ' ::
          (natDigits (countColumns (String.mk (jsTrimList (removeTurn p.data)))).toNat ++
            '\n' :: jsTrimList (removeTurn p.data)))) ∨
      (¬countColumns (String.mk (jsTrimList (removeTurn p.data))) > 0 ∧
        filterPattern p = String.mk ('c' :: 'o' :: ' ' :: '1' :: '0' ::
          '\n' :: jsTrimList (removeTurn p.data))) := by
    unfold filterPattern
    dsimp only
    cases hsc : splitRuns (jsTrimList (removeTurn p.data)) with
    | nil =>
      rw [if_neg (by simp)]
      by_cases hcc : countColumns (String.mk (jsTrimList (removeTurn p.data))) > 0
      · rw [if_pos hcc]
        exact Or.inr (Or.inl ⟨hcc, rfl⟩)
      · rw [if_neg hcc]
        exact Or.inr (Or.inr ⟨hcc, rfl⟩)
    | cons t ts =>
      by_cases hco : startsWithCo (lowerToken t) = true
      · rw [if_pos (show _ = true from hco)]
        exact Or.inl ⟨t, ts, rfl, hco, rfl⟩
      · rw [if_neg (by simpa using hco)]
        by_cases hcc : countColumns (String.mk (jsTrimList (removeTurn p.data))) > 0
        · rw [if_pos hcc]
          exact Or.inr (Or.inl ⟨hcc, rfl⟩)
        · rw [if_neg hcc]
          exact Or.inr (Or.inr ⟨hcc, rfl⟩)
  refine ⟨fun _ => rfl, ?_, ?_, hcases⟩
  · -- no token is `turn`
    show ∀ t ∈ allTokens (filterPattern p), lowerToken t ≠ ['t', 'u', 'r', 'n']
    rcases hcases with ⟨t0, ts0, hsc, hco, hpp⟩ | ⟨hcc, hpp⟩ | ⟨hcc, hpp⟩
    · rw [hpp, allTokens_eq]
      exact hft
    · rw [hpp, allTokens_eq]
      rw [show (String.mk ('c' :: 'o' :: ' ' ::
            (natDigits (countColumns (String.mk (jsTrimList (removeTurn p.data)))).toNat ++
              '\n' :: jsTrimList (removeTurn p.data)))).data =
          ['c', 'o'] ++ ' ' ::
            (natDigits (countColumns (String.mk (jsTrimList (removeTurn p.data)))).toNat ++
              '\n' :: jsTrimList (removeTurn p.data)) from rfl,
        splitRuns_run_append ['c', 'o'] ' ' _ (by simp) (by decide) (by decide),
        splitRuns_run_append (natDigits _) '\n' _ (natDigits_ne_nil _)
          (fun c hc => digit_not_ws c (natDigits_digits _ c hc)) (by decide)]
      intro t ht
      rcases List.mem_cons.mp ht with rfl | ht2
      · decide
      · rcases List.mem_cons.mp ht2 with rfl | ht3
        · exact digits_not_turn _
        · exact hft t ht3
    · rw [hpp, allTokens_eq]
      rw [show (String.mk ('c' :: 'o' :: ' ' :: '1' :: '0' ::
            '\n' :: jsTrimList (removeTurn p.data))).data =
          ['c', 'o'] ++ ' ' :: (['1', '0'] ++
            '\n' :: jsTrimList (removeTurn p.data)) from rfl,
        splitRuns_run_append ['c', 'o'] ' ' _ (by simp) (by decide) (by decide),
        splitRuns_run_append ['1', '0'] '\n' _ (by simp) (by decide) (by decide)]
      intro t ht
      rcases List.mem_cons.mp ht with rfl | ht2
      · decide
      · rcases List.mem_cons.mp ht2 with rfl | ht3
        · decide
        · exact hft t ht3
  · -- the first token is a cast-on
    rcases hcases with ⟨t0, ts0, hsc, hco, hpp⟩ | ⟨hcc, hpp⟩ | ⟨hcc, hpp⟩
    · refine ⟨t0, ts0, ?_, hco⟩
      rw [hpp, allTokens_eq]
      exact hsc
    · refine ⟨['c', 'o'],
        natDigits (countColumns (String.mk (jsTrimList (removeTurn p.data)))).toNat ::
          splitRuns (jsTrimList (removeTurn p.data)), ?_, by decide⟩
      rw [hpp, allTokens_eq]
      rw [show (String.mk ('c' :: 'o' :: ' ' ::
            (natDigits (countColumns (String.mk (jsTrimList (removeTurn p.data)))).toNat ++
              '\n' :: jsTrimList (removeTurn p.data)))).data =
          ['c', 'o'] ++ ' ' ::
            (natDigits (countColumns (String.mk (jsTrimList (removeTurn p.data)))).toNat ++
              '\n' :: jsTrimList (removeTurn p.data)) from rfl,
        splitRuns_run_append ['c', 'o'] ' ' _ (by simp) (by decide) (by decide),
        splitRuns_run_append (natDigits _) '\n' _ (natDigits_ne_nil _)
          (fun c hc => digit_not_ws c (natDigits_digits _ c hc)) (by decide)]
    · refine ⟨['c', 'o'], ['1', '0'] :: splitRuns (jsTrimList (removeTurn p.data)),
        ?_, by decide⟩
      rw [hpp, allTokens_eq]
      rw [show (String.mk ('c' :: 'o' :: ' ' :: '1' :: '0' ::
            '\n' :: jsTrimList (removeTurn p.data))).data =
          ['c', 'o'] ++ ' ' :: (['1', '0'] ++
            '\n' :: jsTrimList (removeTurn p.data)) from rfl,
        splitRuns_run_append ['c', 'o'] ' ' _ (by simp) (by decide) (by decide),
        splitRuns_run_append ['1', '0'] '\n' _ (by simp) (by decide) (by decide)]

/-- C9 (witness): the amended theorem applied to the concrete 2-edge
chain. -/
theorem claim_C9_amended_witness :
    (calibrate chainCalib).2.1 - (calibrate chainCalib).1 ≤ 1/10000 ∧
    (calibObjective chainCalib ((calibrate chainCalib).2.2) ≤
       calibObjective chainCalib ((calibrate chainCalib).2.2 + 1/10000) ∨
     calibObjective chainCalib ((calibrate chainCalib).2.2) ≤
       calibObjective chainCalib ((calibrate chainCalib).2.2 - 1/10000)) :=
  claim_C9_amended chainCalib (by simp [chainCalib]) (by norm_num [chainCalib])

end Knit
